import Mathlib

set_option linter.unusedVariables false
set_option maxRecDepth 40000

/-!
Verification of the streaming/formatting engine of the Gemini-CLI Telegram bot
(`app.py`). Strings are modelled as `List Char` (`Str`); Python string slicing
`s[:n]` and `s[n:]` become `List.take` and `List.drop`, `len` becomes
`List.length`. Wall-clock times (Python floats from `time.time()`) are
modelled as rationals; only comparisons of times matter to the code under
study. Remote-transport results (`requests.post` outcomes) are supplied by
explicit oracles so that every definition is executable.
-/

namespace GeminiBot

/-- Strings of the Python source, modelled as lists of characters. -/
abbrev Str := List Char

/-- The ESC byte `0x1B` that anchors the `ansi_escape` regex. -/
def escByte : Char := Char.ofNat 27

/-- The backtick character (0x60). -/
def btick : Char := Char.ofNat 96

/-- Python `\s` on the ASCII range: the whitespace class used by the
`re.sub` transforms (space, tab, newline, carriage return, vertical tab,
form feed). -/
def pyWs (c : Char) : Bool :=
  c = ' ' || c = '\t' || c = '\n' || c = '\r' || c = Char.ofNat 11 || c = Char.ofNat 12

/-!
### The `ansi_escape` regex (app.py line 945)

The pattern is ESC followed by either a single byte in 0x40-0x5A or
0x5C-0x5F, or a CSI sequence: an opening bracket 0x5B, then parameter bytes
0x30-0x3F, intermediate bytes 0x20-0x2F, and one final byte 0x40-0x7E.
It is used with `.sub('', s)`.  The three CSI classes are pairwise disjoint,
so the greedy stars never need to backtrack.
-/

/-- Characters matched by the first alternative (0x40-0x5A, 0x5C-0x5F). -/
def inEscClass1 (c : Char) : Bool :=
  (0x40 ≤ c.toNat && c.toNat ≤ 0x5A) || (0x5C ≤ c.toNat && c.toNat ≤ 0x5F)

/-- CSI parameter bytes (0x30-0x3F). -/
def isCsiParam (c : Char) : Bool := 0x30 ≤ c.toNat && c.toNat ≤ 0x3F

/-- CSI intermediate bytes (0x20-0x2F). -/
def isCsiInter (c : Char) : Bool := 0x20 ≤ c.toNat && c.toNat ≤ 0x2F

/-- CSI final bytes (0x40-0x7E). -/
def isCsiFinal (c : Char) : Bool := 0x40 ≤ c.toNat && c.toNat ≤ 0x7E

/-- Matches the CSI tail (after ESC and the opening bracket): parameter
bytes, then intermediate bytes, then one final byte.  Returns the remainder
after the match. -/
def matchCsiTail (rest2 : Str) : Option Str :=
  match (rest2.dropWhile isCsiParam).dropWhile isCsiInter with
  | [] => none
  | f :: rest3 => if isCsiFinal f then some rest3 else none

theorem matchCsiTail_length {l r : Str} (h : matchCsiTail l = some r) :
    r.length < l.length := by
  unfold matchCsiTail at h
  split at h
  · exact absurd h (by simp)
  · next f rest3 hdw =>
    split at h
    · cases h
      have h2 : (f :: r).length ≤ (l.dropWhile isCsiParam).length := by
        rw [← hdw]; exact (List.dropWhile_suffix _).length_le
      have h3 : (l.dropWhile isCsiParam).length ≤ l.length :=
        (List.dropWhile_suffix _).length_le
      simp only [List.length_cons] at h2
      omega
    · exact absurd h (by simp)

/-- Attempts to match the `ansi_escape` regex at the head of the string.
Returns the remainder after the match, or `none` when the regex does not
match at this position. -/
def matchEscape : Str → Option Str
  | c :: d :: rest2 =>
    if c = escByte then
      if inEscClass1 d then some rest2
      else if d.toNat = 0x5B then matchCsiTail rest2
      else none
    else none
  | _ => none

theorem matchEscape_length {l r : Str} (h : matchEscape l = some r) :
    r.length < l.length := by
  match l with
  | [] => simp [matchEscape] at h
  | [c] => simp [matchEscape] at h
  | c :: d :: rest2 =>
    simp only [matchEscape] at h
    split at h
    · split at h
      · cases h; simp [Nat.lt_succ_iff, Nat.le_succ_of_le]
      · split at h
        · have := matchCsiTail_length h
          simp only [List.length_cons]
          omega
        · exact absurd h (by simp)
    · exact absurd h (by simp)

/-- Fuelled worker for `ansiStrip`.  Every recursive call consumes at least
one character, so fuel `s.length` always suffices; the fuel only makes the
recursion structural (hence kernel-executable). -/
def ansiStripF : Nat → Str → Str
  | 0, _ => []
  | _, [] => []
  | fuel + 1, c :: rest =>
    match matchEscape (c :: rest) with
    | some r => ansiStripF fuel r
    | none => c :: ansiStripF fuel rest

/-- Model of `ansi_escape.sub('', s)`: delete every non-overlapping,
leftmost match of the escape regex.  `re.sub` scans left to right and
resumes scanning after the end of each deleted match. -/
def ansiStrip (s : Str) : Str := ansiStripF s.length s

theorem ansiStripF_irrel {f1 f2 : Nat} {s : Str}
    (h1 : s.length ≤ f1) (h2 : s.length ≤ f2) :
    ansiStripF f1 s = ansiStripF f2 s := by
  induction f1 generalizing f2 s with
  | zero =>
    have hs : s = [] := List.length_eq_zero.mp (Nat.le_zero.mp h1)
    subst hs
    cases f2 <;> rfl
  | succ f ih =>
    match s with
    | [] => cases f2 <;> rfl
    | c :: rest =>
      match f2 with
      | 0 => exact absurd h2 (by simp)
      | g + 1 =>
        simp only [ansiStripF]
        rcases hm : matchEscape (c :: rest) with _ | r
        · dsimp only
          have hr : rest.length ≤ f := by
            simpa using Nat.le_of_succ_le_succ h1
          have hr2 : rest.length ≤ g := by
            simpa using Nat.le_of_succ_le_succ h2
          rw [ih hr hr2]
        · dsimp only
          have hlen := matchEscape_length hm
          have hr : r.length ≤ f := by
            simp only [List.length_cons] at hlen h1
            omega
          have hr2 : r.length ≤ g := by
            simp only [List.length_cons] at hlen h2
            omega
          rw [ih hr hr2]

theorem ansiStrip_nil : ansiStrip [] = [] := rfl

theorem ansiStrip_cons_match {c : Char} {rest r : Str}
    (h : matchEscape (c :: rest) = some r) :
    ansiStrip (c :: rest) = ansiStrip r := by
  unfold ansiStrip
  have hlen := matchEscape_length h
  simp only [List.length_cons, ansiStripF, h]
  exact ansiStripF_irrel (by simp only [List.length_cons] at hlen; omega) (Nat.le_refl _)

theorem ansiStrip_cons_nomatch {c : Char} {rest : Str}
    (h : matchEscape (c :: rest) = none) :
    ansiStrip (c :: rest) = c :: ansiStrip rest := by
  unfold ansiStrip
  simp only [List.length_cons, ansiStripF, h]

theorem matchEscape_eq_none_of_ne {c : Char} {rest : Str} (h : c ≠ escByte) :
    matchEscape (c :: rest) = none := by
  match rest with
  | [] => rfl
  | d :: rest2 => simp [matchEscape, h]

/-- On a string without the ESC byte, the regex never matches, so the
stripping transform is the identity. -/
theorem ansiStrip_of_no_esc {s : Str} (h : ∀ c ∈ s, c ≠ escByte) :
    ansiStrip s = s := by
  induction s with
  | nil => rfl
  | cons c rest ih =>
    rw [ansiStrip_cons_nomatch (matchEscape_eq_none_of_ne (h c (by simp)))]
    rw [ih (fun d hd => h d (by simp [hd]))]

/-!
### Telegram transport helpers (app.py lines 194-308)

Remote calls are modelled by passing the outcome of the single
`requests.post` a function performs as an explicit argument.  Each function
returns, besides its Python return value, the list of request payload texts
it actually posted (empty when the function bailed out before posting) and,
for `edit_message_text`, the list of `time.sleep` durations it performed.
-/

/-- Python `parse_mode` argument values used by the source: the strings
`"Markdown"` and `"HTML"`, the empty string, and `None`. -/
inductive PyParseMode
  | markdown
  | html
  | emptyStr
  | noneVal
deriving DecidableEq, Repr

/-- Outcome of the `requests.post` performed by `edit_message_text`:
a 2xx body with `ok: true`; `ok: false` with a description containing
"message is not modified"; `ok: false` with another description; HTTP 429
with an optional parsed `retry_after`  (`none` models a missing field or a
JSON parse failure, both of which default to 1); another non-2xx status
(`raise_for_status` raises); or a network-level `RequestException`. -/
inductive TgResponse
  | okResp
  | notModified
  | badResp
  | rateLimited (retryAfter : Option ℚ)
  | httpError
  | netError
deriving DecidableEq, Repr

/-- Model of `edit_message_text` (app.py lines 276-308).  Returns
`(success, sleep durations, posted payload texts)`.  On HTTP 429 the code
sleeps `min(retry_after, 5)` seconds and reports failure; a response whose
description says the message is not modified counts as success; every
raised `RequestException` (including `raise_for_status`) is caught and
reported as failure. -/
def editMessageText (chatId messageId : Nat) (text : Str) (resp : TgResponse) :
    Bool × List ℚ × List Str :=
  if text = [] then (false, [], [])
  else
    match resp with
    | .okResp => (true, [], [text])
    | .notModified => (true, [], [text])
    | .badResp => (false, [], [text])
    | .rateLimited r => (false, [min (r.getD 1) 5], [text])
    | .httpError => (false, [], [text])
    | .netError => (false, [], [text])

/-- Model of `send_message` (app.py lines 194-224).  The function never
returns a value (Python `None`); with Markdown parse mode the text is first
passed through `format_for_telegram`, modelled here by the abstract
argument `fmt`.  Returns `(returned message id, posted payload texts)`. -/
def sendMessage (fmt : Str → Str) (chatId : Nat) (text : Str) (pm : PyParseMode) :
    Option Nat × List Str :=
  if text = [] then (none, [])
  else
    let t := if pm = .markdown then fmt text else text
    (none, [t])

/-- Model of `send_message_raw` (app.py lines 226-247): plain-text send that
returns the new `message_id` on success.  `respId` is the message id
extracted from the transport response (`none` for any failure). -/
def sendMessageRaw (chatId : Nat) (text : Str) (respId : Option Nat) :
    Option Nat × List Str :=
  if text = [] then (none, [])
  else (respId, [text])

/-- Model of `send_message_with_id` (app.py lines 249-274): like
`send_message` but returns the new `message_id` on success. -/
def sendMessageWithId (fmt : Str → Str) (chatId : Nat) (text : Str)
    (pm : PyParseMode) (respId : Option Nat) : Option Nat × List Str :=
  if text = [] then (none, [])
  else
    let t := if pm = .markdown then fmt text else text
    (respId, [t])

/-!
### Streaming configuration (app.py lines 83-88) and the Update Scheduler
(`maybe_update_partial`, `maybe_update_block`, app.py lines 972-1015)

The closure variables of `run_gemini_streaming` that the two scheduler
functions mutate (`block_buffer`, `message_id`, `last_sent_text`,
`last_update_time`, `update_count`) form `SchedState`.  The results of the
remote calls the scheduler performs are drawn from an oracle `EditEnv`:
`editResults` are the successive boolean returns of `edit_message_text`,
`sendResults` the successive returns of `send_message_raw`.
-/

/-- The `STREAM_*` environment configuration. -/
structure StreamConfig where
  updateInterval : ℤ
  minChars : Nat
  maxChars : Nat
  tailLimit : Nat
  cursor : Str
deriving DecidableEq, Repr

/-- Default values: interval 1.5 s, 200/800 block thresholds, 3800 tail
limit, cursor `" ▌"` (a space and a half-block glyph, two characters).
Clock instants are modelled as integer tenths of a second (the source holds
float seconds and only ever compares differences of instants against the
configured interval), so 1.5 s is the exact value 15. -/
def defaultConfig : StreamConfig :=
  { updateInterval := 15
    minChars := 200
    maxChars := 800
    tailLimit := 3800
    cursor := [' ', '▌'] }

/-- The three values of `STREAM_MODE` (after the fallback of line 918). -/
inductive StreamMode
  | partialMode
  | blockMode
  | offMode
deriving DecidableEq, Repr

/-- Oracle for the outcomes of the scheduler's remote calls. -/
structure EditEnv where
  editResults : List Bool
  sendResults : List (Option Nat)
deriving DecidableEq, Repr

/-- Pops the next `edit_message_text` outcome (failure once exhausted). -/
def takeEdit (env : EditEnv) : Bool × EditEnv :=
  (env.editResults.headD false,
   { env with editResults := env.editResults.tail })

/-- Pops the next `send_message_raw` outcome (failure once exhausted). -/
def takeSend (env : EditEnv) : Option Nat × EditEnv :=
  (env.sendResults.headD none,
   { env with sendResults := env.sendResults.tail })

/-- Observable remote effects of the streaming engine, in program order. -/
inductive Eff
  | editMsg (messageId : Nat) (text : Str) (ok : Bool)
  | sendRaw (text : Str) (result : Option Nat)
  | sendMsg (text : Str) (pm : PyParseMode)
  | sendFileWithContent (filename : Str)
deriving DecidableEq, Repr

/-- The text payload an effect carries to the remote endpoint. -/
def Eff.payload : Eff → Str
  | .editMsg _ t _ => t
  | .sendRaw t _ => t
  | .sendMsg t _ => t
  | .sendFileWithContent t => t

/-- Whether the effect was a successful push of message content. -/
def Eff.succeeded : Eff → Bool
  | .editMsg _ _ ok => ok
  | .sendRaw _ r => r.isSome
  | .sendMsg _ _ => true
  | .sendFileWithContent _ => true

/-- Mutable scheduler state of one `run_gemini_streaming` invocation. -/
structure SchedState where
  blockBuffer : Str
  messageId : Nat
  lastSentText : Str
  lastUpdateTime : ℤ
  updateCount : Nat
deriving DecidableEq, Repr

/-- The ellipsis character used as truncation marker and as the block-mode
continuation placeholder. -/
def ellipsisChar : Char := '…'

/-- The one-character continuation message text. -/
def dotsStr : Str := [ellipsisChar]

/-- The visible tail computed by `maybe_update_partial` (lines 978-980):
when the stripped output exceeds `STREAM_TAIL_LIMIT`, show an ellipsis plus
the last `STREAM_TAIL_LIMIT` characters.  Note the Python idiom
`visible[-limit:]` yields the whole string when `limit == 0`, which the
first branch reproduces. -/
def visibleTail (cfg : StreamConfig) (s : Str) : Str :=
  if cfg.tailLimit < s.length then
    if cfg.tailLimit = 0 then ellipsisChar :: s
    else ellipsisChar :: s.drop (s.length - cfg.tailLimit)
  else s

/-- Model of `maybe_update_partial` (app.py lines 972-985).  Returns the
new scheduler state, the remaining oracle, and the effects performed.
`stdoutClean` is the accumulated control-code-stripped stdout. -/
def maybeUpdatePartial (cfg : StreamConfig) (now : ℤ) (stdoutClean : Str)
    (st : SchedState) (env : EditEnv) : SchedState × EditEnv × List Eff :=
  if stdoutClean = [] then (st, env, [])
  else if now - st.lastUpdateTime < cfg.updateInterval then (st, env, [])
  else
    let text := visibleTail cfg stdoutClean ++ cfg.cursor
    if text ≠ st.lastSentText then
      let ok := (takeEdit env).1
      let st1 :=
        if ok then
          { st with lastSentText := text, lastUpdateTime := now,
                    updateCount := st.updateCount + 1 }
        else st
      (st1, (takeEdit env).2, [Eff.editMsg st.messageId text ok])
    else (st, env, [])

/-- Fuelled worker for the `while len(block_buffer) >= STREAM_MAX_CHARS`
loop at the top of `maybe_update_block` (lines 990-1000).  Each iteration
removes `maxChars ≥ 1` characters from the buffer, so fuel
`blockBuffer.length` always suffices.  When `STREAM_MAX_CHARS = 0` the
Python loop would never terminate (the empty chunk is rejected by
`edit_message_text` and the buffer never shrinks); the `0 < maxChars`
guard models that divergent configuration as an immediate exit, which no
claim depends on. -/
def flushLoopF : Nat → StreamConfig → ℤ → Bool → SchedState → EditEnv →
    SchedState × EditEnv × List Eff
  | 0, _, _, _, st, env => (st, env, [])
  | fuel + 1, cfg, now, exited, st, env =>
    if 0 < cfg.maxChars ∧ cfg.maxChars ≤ st.blockBuffer.length then
      let chunk := st.blockBuffer.take cfg.maxChars
      let rest := st.blockBuffer.drop cfg.maxChars
      let ok := (takeEdit env).1
      let env1 := (takeEdit env).2
      let e1 := Eff.editMsg st.messageId chunk ok
      if !exited || rest ≠ [] then
        let mid := (takeSend env1).1
        let st2 : SchedState :=
          { blockBuffer := rest,
            messageId := mid.getD st.messageId,
            lastSentText := if ok then chunk else st.lastSentText,
            lastUpdateTime := if ok then now else st.lastUpdateTime,
            updateCount := if ok then st.updateCount + 1 else st.updateCount }
        let r := flushLoopF fuel cfg now exited st2 (takeSend env1).2
        (r.1, r.2.1, e1 :: Eff.sendRaw dotsStr mid :: r.2.2)
      else
        let st1 : SchedState :=
          { blockBuffer := rest,
            messageId := st.messageId,
            lastSentText := if ok then chunk else st.lastSentText,
            lastUpdateTime := if ok then now else st.lastUpdateTime,
            updateCount := if ok then st.updateCount + 1 else st.updateCount }
        let r := flushLoopF fuel cfg now exited st1 env1
        (r.1, r.2.1, e1 :: r.2.2)
    else (st, env, [])

/-- The full-chunk flushing loop of `maybe_update_block`. -/
def flushBlocks (cfg : StreamConfig) (now : ℤ) (exited : Bool)
    (st : SchedState) (env : EditEnv) : SchedState × EditEnv × List Eff :=
  flushLoopF st.blockBuffer.length cfg now exited st env

/-- Model of `maybe_update_block` (app.py lines 987-1015).  `exited` is
`process.poll() is not None`; `forceFlush` is the `force_flush` keyword
argument used by the Finalizer. -/
def maybeUpdateBlock (cfg : StreamConfig) (now : ℤ) (exited : Bool)
    (forceFlush : Bool) (st : SchedState) (env : EditEnv) :
    SchedState × EditEnv × List Eff :=
  let r := flushBlocks cfg now exited st env
  let st1 := r.1
  let env1 := r.2.1
  let effs1 := r.2.2
  if forceFlush then
    if st1.blockBuffer ≠ [] then
      let ok := (takeEdit env1).1
      let st2 :=
        if ok then
          { st1 with lastSentText := st1.blockBuffer, lastUpdateTime := now,
                     updateCount := st1.updateCount + 1 }
        else st1
      (st2, (takeEdit env1).2, effs1 ++ [Eff.editMsg st1.messageId st1.blockBuffer ok])
    else (st1, env1, effs1)
  else
    if cfg.minChars ≤ st1.blockBuffer.length ∧
        cfg.updateInterval ≤ now - st1.lastUpdateTime then
      let text := st1.blockBuffer ++ cfg.cursor
      if text ≠ st1.lastSentText then
        let ok := (takeEdit env1).1
        let st2 :=
          if ok then
            { st1 with lastSentText := text, lastUpdateTime := now,
                       updateCount := st1.updateCount + 1 }
          else st1
        (st2, (takeEdit env1).2, effs1 ++ [Eff.editMsg st1.messageId text ok])
      else (st1, env1, effs1)
    else (st1, env1, effs1)

/-!
### The stream-consumer loop (app.py lines 1017-1046)

The two `stream_reader` threads (lines 958-963) push `(label, chunk)` pairs
onto one shared FIFO queue and a final `(label, None)` sentinel each.  The
consumer loop pulls with a 0.1 s timeout; a timeout surfaces as
`label = chunk = None`.  A loop iteration is therefore driven by a
`LoopEvent`: the dequeued message (or `none` on timeout), the value of
`time.time()` for this iteration, and whether `process.poll()` reports the
process as exited during this iteration.
-/

/-- The two output channels. -/
inductive ChanLabel
  | stdoutCh
  | stderrCh
deriving DecidableEq, Repr

/-- One queue entry: a chunk of at most 512 characters, or the EOF sentinel
(`chunk = none`) that each reader pushes exactly once at channel close. -/
structure QMsg where
  label : ChanLabel
  chunk : Option Str
deriving DecidableEq, Repr

/-- One iteration of the consumer loop, as seen from the outside. -/
structure LoopEvent where
  msg : Option QMsg
  now : ℤ
  exited : Bool
deriving DecidableEq, Repr

/-- The non-scheduler mutable state of `run_gemini_streaming`. -/
structure RunState where
  fullOutput : Str
  stdoutClean : Str
  stderrOutput : Str
  stdoutDone : Bool
  stderrDone : Bool
  sched : SchedState
deriving DecidableEq, Repr

/-- The state of `run_gemini_streaming` just after the initial placeholder
message was sent with id `msgId` at time `t0` (lines 944-956). -/
def initState (msgId : Nat) (t0 : ℤ) : RunState :=
  { fullOutput := []
    stdoutClean := []
    stderrOutput := []
    stdoutDone := false
    stderrDone := false
    sched :=
      { blockBuffer := []
        messageId := msgId
        lastSentText := []
        lastUpdateTime := t0
        updateCount := 0 } }

/-- The chunk-accumulation part of the loop body (lines 1025-1037). -/
def consumeMsg (m : Option QMsg) (st : RunState) : RunState :=
  match m with
  | none => st
  | some q =>
    match q.label, q.chunk with
    | .stdoutCh, none => { st with stdoutDone := true }
    | .stdoutCh, some chunk =>
      let clean := ansiStrip chunk
      { st with
          fullOutput := st.fullOutput ++ chunk
          stdoutClean := st.stdoutClean ++ clean
          sched := { st.sched with blockBuffer := st.sched.blockBuffer ++ clean } }
    | .stderrCh, none => { st with stderrDone := true }
    | .stderrCh, some chunk => { st with stderrOutput := st.stderrOutput ++ chunk }

/-- One full iteration of the consumer loop: accumulate the dequeued
message, then run the scheduler for the configured mode (lines 1039-1043). -/
def loopStep (cfg : StreamConfig) (mode : StreamMode) (e : LoopEvent)
    (st : RunState) (env : EditEnv) : RunState × EditEnv × List Eff :=
  let st1 := consumeMsg e.msg st
  match mode with
  | .partialMode =>
    let r := maybeUpdatePartial cfg e.now st1.stdoutClean st1.sched env
    ({ st1 with sched := r.1 }, r.2.1, r.2.2)
  | .blockMode =>
    let r := maybeUpdateBlock cfg e.now e.exited false st1.sched env
    ({ st1 with sched := r.1 }, r.2.1, r.2.2)
  | .offMode => (st1, env, [])

/-- Result of running the consumer loop on a finite trace of iteration
events: final state, remaining oracle, effects, and the events that were
not consumed because the loop broke (`none` when the trace was exhausted
without the break condition ever holding). -/
structure LoopResult where
  state : RunState
  env : EditEnv
  effs : List Eff
  leftover : Option (List LoopEvent)
deriving Repr

/-- The consumer loop (lines 1018-1046): process one event, then break
exactly when `stdout_done and stderr_done and process.poll() is not None`. -/
def runLoop (cfg : StreamConfig) (mode : StreamMode) :
    List LoopEvent → RunState → EditEnv → LoopResult
  | [], st, env => ⟨st, env, [], none⟩
  | e :: es, st, env =>
    let r := loopStep cfg mode e st env
    if r.1.stdoutDone && r.1.stderrDone && e.exited then
      ⟨r.1, r.2.1, r.2.2, some es⟩
    else
      let r2 := runLoop cfg mode es r.1 r.2.1
      ⟨r2.state, r2.env, r.2.2 ++ r2.effs, r2.leftover⟩

/-- The loop body folded over a trace without the break test; used to
speak about the state the loop has reached after a given prefix. -/
def processList (cfg : StreamConfig) (mode : StreamMode) :
    List LoopEvent → RunState → EditEnv → RunState × EditEnv
  | [], st, env => (st, env)
  | e :: es, st, env =>
    let r := loopStep cfg mode e st env
    processList cfg mode es r.1 r.2.1

/-- The stdout-channel messages of a trace, in order (chunks as `some`,
the EOF sentinel as `none`). -/
def outMsgs (es : List LoopEvent) : List (Option Str) :=
  es.filterMap fun e =>
    match e.msg with
    | some q => if q.label = .stdoutCh then some q.chunk else none
    | none => none

/-- The stderr-channel messages of a trace, in order. -/
def errMsgs (es : List LoopEvent) : List (Option Str) :=
  es.filterMap fun e =>
    match e.msg with
    | some q => if q.label = .stderrCh then some q.chunk else none
    | none => none

/-- The chunk entries of a channel message list. -/
def someEntries (l : List (Option Str)) : List Str := l.filterMap id

/-!
### Fenced code regions (app.py lines 160-192)

Both `break_sentences_into_lines` and `format_for_telegram_paragraphs`
start with `re.split` capturing every minimal triple-backtick-delimited
region and then transform only the even-indexed (non-captured) parts.
The regex engine finds the leftmost opening triple and the earliest
closing triple at least three characters later; when the first opening
triple has no closing one, no match exists anywhere (a later opening
would itself close the first one), and `re.split` returns the whole
string as a single part.
-/

/-- The triple-backtick fence delimiter. -/
def fenceStr : Str := [btick, btick, btick]

/-- Splits a string at the first position where a triple backtick starts:
returns the part before it and the remainder (which starts with the
fence), or `none` when no triple backtick occurs. -/
def splitAtFence : Str → Option (Str × Str)
  | [] => none
  | c :: rest =>
    if fenceStr.isPrefixOf (c :: rest) then some ([], c :: rest)
    else
      match splitAtFence rest with
      | some (a, b) => some (c :: a, b)
      | none => none

/-- Finds the leftmost minimal fenced region: returns
`(before, fenced block including both delimiters, after)`. -/
def findFence (s : Str) : Option (Str × Str × Str) :=
  match splitAtFence s with
  | none => none
  | some (pre, rest) =>
    match splitAtFence (rest.drop 3) with
    | none => none
    | some (mid, rest2) => some (pre, fenceStr ++ mid ++ fenceStr, rest2.drop 3)

/-- Fuelled worker for `splitFences`.  Every step removes a fenced block of
at least six characters, so fuel `s.length` always suffices. -/
def splitFencesF : Nat → Str → List Str
  | 0, s => [s]
  | fuel + 1, s =>
    match findFence s with
    | none => [s]
    | some (pre, block, post) => pre :: block :: splitFencesF fuel post

/-- Model of `re.split` with the fenced-region pattern: the resulting list
alternates non-captured parts (even indices) and fenced blocks (odd
indices), and concatenates back to the input. -/
def splitFences (s : Str) : List Str := splitFencesF s.length s

/-- The odd-indexed elements of a part list: the captured fenced blocks. -/
def oddParts : List Str → List Str
  | _ :: b :: rest => b :: oddParts rest
  | _ => []

/-- The fenced code regions of a string, in order. -/
def fenceBlocks (s : Str) : List Str := oddParts (splitFences s)

/-- Applies `g` to the even-indexed elements, keeping odd ones. -/
def mapEven (g : Str → Str) : List Str → List Str
  | [] => []
  | [x] => [g x]
  | x :: y :: rest => g x :: y :: mapEven g rest

/-- The shared shape of both formatting transforms: split at fenced
regions, rewrite only the text between them, and join back. -/
def applyOutsideFences (g : Str → Str) (s : Str) : Str :=
  (mapEven g (splitFences s)).flatten

/-- Lookbehind test of the sentence-breaking regex: is the previous
character one of `.`, `!`, `?`. -/
def prevIsSentEnd : Option Char → Bool
  | some c => c = '.' || c = '!' || c = '?'
  | none => false

/-- Fuelled worker for the non-code-part transform of
`break_sentences_into_lines`: `re.sub` replacing every whitespace run
preceded by a sentence-ending character with one newline.  A match can
only start at a whitespace character whose predecessor in the original
string ends a sentence; characters inside a whitespace run are preceded
by whitespace, so runs are matched (or skipped) atomically. -/
def breakSubF : Nat → Option Char → Str → Str
  | 0, _, _ => []
  | _, _, [] => []
  | fuel + 1, prev, c :: rest =>
    if pyWs c then
      let run := c :: rest.takeWhile pyWs
      let rest2 := rest.dropWhile pyWs
      let out := if prevIsSentEnd prev then ['\n'] else run
      out ++ breakSubF fuel (some (run.getLastD c)) rest2
    else c :: breakSubF fuel (some c) rest

/-- The sentence-breaking substitution applied to one non-code part. -/
def breakSub (s : Str) : Str := breakSubF s.length none s

/-- Model of `break_sentences_into_lines` (app.py lines 160-172). -/
def breakSentencesIntoLines (s : Str) : Str := applyOutsideFences breakSub s

/-- The `part.replace(chr(10), 2*chr(10))` step of
`format_for_telegram_paragraphs`: double every newline. -/
def doubleNewlines : Str → Str
  | [] => []
  | c :: rest =>
    if c = '\n' then '\n' :: '\n' :: doubleNewlines rest
    else c :: doubleNewlines rest

/-- Fuelled worker for the `re.sub` collapsing every run of three or more
newlines to exactly two. -/
def collapseNewlinesF : Nat → Str → Str
  | 0, _ => []
  | _, [] => []
  | fuel + 1, c :: rest =>
    if c = '\n' then
      let runlen := 1 + (rest.takeWhile (fun d => d = '\n')).length
      let rest2 := rest.dropWhile (fun d => d = '\n')
      (if 3 ≤ runlen then ['\n', '\n'] else List.replicate runlen '\n') ++
        collapseNewlinesF fuel rest2
    else c :: collapseNewlinesF fuel rest

/-- The newline-collapsing substitution. -/
def collapseNewlines (s : Str) : Str := collapseNewlinesF s.length s

/-- The paragraph substitution applied to one non-code part. -/
def paraSub (s : Str) : Str := collapseNewlines (doubleNewlines s)

/-- Model of `format_for_telegram_paragraphs` (app.py lines 174-192). -/
def formatForTelegramParagraphs (s : Str) : Str := applyOutsideFences paraSub s

/-- Fuelled worker for the final chunking of the formatted text. -/
def chunksOfF : Nat → Nat → Str → List Str
  | 0, _, _ => []
  | _, _, [] => []
  | fuel + 1, n, s => s.take n :: chunksOfF fuel n (s.drop n)

/-- Model of the list comprehension at app.py line 1083: the formatted
final text sliced into segments of `n = 4096` characters. -/
def chunksOf (n : Nat) (s : Str) : List Str := chunksOfF s.length n s

/-- A string is a safe left context for a fence: it contains no triple
backtick and does not end in a backtick, so gluing it to a fence cannot
create an earlier triple. -/
def SafeBefore (a : Str) : Prop :=
  ¬ fenceStr <:+: a ∧ a.getLast? ≠ some btick

/-- Existence of two disjoint fences: the shape every match of the fence
regex needs. -/
def PairIn (s : Str) : Prop :=
  ∃ a u, s = a ++ fenceStr ++ u ∧ fenceStr <:+: u

/-- The three facts about a text transform that make it safe around
fenced regions: it creates no triple backtick, no trailing backtick, and
around a lone fence it maps the two sides separately. -/
structure FenceRespecting (g : Str → Str) : Prop where
  infixT : ∀ s, fenceStr <:+: g s → fenceStr <:+: s
  lastT : ∀ s, (g s).getLast? = some btick → s.getLast? = some btick
  sandwich : ∀ a t, SafeBefore a → ¬ fenceStr <:+: t →
    ∃ A T, g (a ++ fenceStr ++ t) = A ++ fenceStr ++ T ∧
      SafeBefore A ∧ ¬ fenceStr <:+: T

/-!
### The Finalizer (app.py lines 1048-1109)

After the consumer loop breaks: append the stderr section to the raw
transcript, strip control codes, persist (the log and `GEMINI.md` appends
have no remote effect and are not modelled), then either force-flush in
block mode and return, or format, chunk into 4096-character segments,
deliver, and scan the unformatted transcript for a backtick-quoted
filename.
-/

/-- Python `str.strip()` restricted to the ASCII whitespace class. -/
def pyStrip (s : Str) : Str :=
  ((s.dropWhile pyWs).reverse.dropWhile pyWs).reverse

/-- The separator prepended to the stderr section of the transcript. -/
def stderrHeader : Str := "\n\n--- STDERR ---\n".toList

/-- The header of the separate stderr message sent in block mode. -/
def stderrMsgHeader : Str := "--- STDERR ---\n".toList

/-- The placeholder used when the cleaned transcript is empty. -/
def emptyRespPlaceholder : Str := "_Gemini CLI returned an empty response._".toList

/-- The initial placeholder message text. -/
def thinkingMsg : Str := "_Gemini is thinking..._".toList

/-- Matches the single-backtick token regex at the head of the string:
a backtick, one or more characters that are neither backtick nor newline,
and a closing backtick.  Returns the token content. -/
def tokenAtHead : Str → Option Str
  | [] => none
  | c :: rest =>
    if c = btick then
      let content := rest.takeWhile fun d => ¬(d = btick ∨ d = '\n')
      let r2 := rest.dropWhile fun d => ¬(d = btick ∨ d = '\n')
      if content ≠ [] ∧ r2.head? = some btick then some content else none
    else none

/-- Model of `re.search` with the single-backtick-token pattern (app.py
line 1104): the leftmost match. -/
def firstBacktickToken : Str → Option Str
  | [] => none
  | c :: rest =>
    match tokenAtHead (c :: rest) with
    | some t => some t
    | none => firstBacktickToken rest

/-- Result of the Finalizer: scheduler state after a possible force
flush, remaining oracle, remote effects, and the file (if any) delivered
through `send_file_with_content`. -/
structure FinalizeResult where
  sched : SchedState
  env : EditEnv
  effs : List Eff
  fileDelivered : Option Str
deriving Repr

/-- Model of the post-loop code of `run_gemini_streaming` (lines
1048-1109).  `now` is the wall-clock time of the force flush;
`fileExists tok` models `(Path(project_context) / tok).is_file()`.
In block mode the function returns right after the force flush and the
stderr notice: no formatting, no chunked delivery, no file scan. -/
def finalize (cfg : StreamConfig) (mode : StreamMode) (now : ℤ)
    (st : RunState) (env : EditEnv) (fileExists : Str → Bool) :
    FinalizeResult :=
  let fullOut :=
    if st.stderrOutput ≠ [] then st.fullOutput ++ stderrHeader ++ st.stderrOutput
    else st.fullOutput
  let cleanOutput := ansiStrip fullOut
  match mode with
  | .blockMode =>
    let r := maybeUpdateBlock cfg now true true st.sched env
    let stderrEffs :=
      if pyStrip st.stderrOutput ≠ [] then
        [Eff.sendMsg (stderrMsgHeader ++ st.stderrOutput) .emptyStr]
      else []
    ⟨r.1, r.2.1, r.2.2 ++ stderrEffs, none⟩
  | _ =>
    let finalText0 := pyStrip cleanOutput
    let finalText := if finalText0 = [] then emptyRespPlaceholder else finalText0
    let formatted := formatForTelegramParagraphs (breakSentencesIntoLines finalText)
    let parts := chunksOf 4096 formatted
    let deliver : EditEnv × List Eff :=
      match parts with
      | [] => (env, [])
      | p0 :: restParts =>
        let ok1 := (takeEdit env).1
        let env1 := (takeEdit env).2
        let sends := restParts.map fun p => Eff.sendMsg p .markdown
        if ok1 then (env1, Eff.editMsg st.sched.messageId p0 true :: sends)
        else
          ((takeEdit env1).2,
           Eff.editMsg st.sched.messageId p0 false ::
           Eff.editMsg st.sched.messageId p0 (takeEdit env1).1 :: sends)
    let delivered :=
      match firstBacktickToken cleanOutput with
      | some tok => if fileExists tok then some tok else none
      | none => none
    let fileEffs :=
      match delivered with
      | some tok => [Eff.sendFileWithContent tok]
      | none => []
    ⟨st.sched, deliver.1, deliver.2 ++ fileEffs, delivered⟩

/-- End-to-end model of `run_gemini_streaming`: send the placeholder, run
the consumer loop over the event trace, and finalize once the loop breaks.
When the initial send fails the function returns immediately (line 929);
when the trace ends without the break condition the run is still in
progress and nothing further happens. -/
def runStreaming (cfg : StreamConfig) (mode : StreamMode)
    (initResp : Option Nat) (t0 : ℤ) (events : List LoopEvent) (tFinal : ℤ)
    (env : EditEnv) (fileExists : Str → Bool) : List Eff × Option Str :=
  match initResp with
  | none => ([Eff.sendMsg thinkingMsg .markdown], none)
  | some msgId =>
    let lr := runLoop cfg mode events (initState msgId t0) env
    match lr.leftover with
    | some _ =>
      let fr := finalize cfg mode tFinal lr.state lr.env fileExists
      (Eff.sendMsg thinkingMsg .markdown :: lr.effs ++ fr.effs, fr.fileDelivered)
    | none => (Eff.sendMsg thinkingMsg .markdown :: lr.effs, none)

/-!
### Claim C10: empty-text guards of the transport helpers
-/

/-- C10: no message is ever sent or edited to empty content.  For every
chat id and message id, `edit_message_text` with empty text returns `False`
without posting anything and without sleeping, and `send_message`,
`send_message_raw` and `send_message_with_id` with empty text post nothing
and return no message id. -/
theorem empty_text_never_sent (fmt : Str → Str) (chatId messageId : Nat)
    (pm : PyParseMode) (resp : TgResponse) (respId : Option Nat) (text : Str)
    (htext : text = []) :
    editMessageText chatId messageId text resp = (false, [], []) ∧
    sendMessage fmt chatId text pm = (none, []) ∧
    sendMessageRaw chatId text respId = (none, []) ∧
    sendMessageWithId fmt chatId text pm respId = (none, []) := by
  subst htext
  refine ⟨rfl, rfl, rfl, rfl⟩

/-- Witness for C10 at a concrete chat, message id, and oracle. -/
theorem empty_text_never_sent_witness :
    editMessageText 7 3 [] .okResp = (false, [], []) ∧
    sendMessage id 7 [] .markdown = (none, []) ∧
    sendMessageRaw 7 [] (some 9) = (none, []) ∧
    sendMessageWithId id 7 [] .markdown (some 9) = (none, []) :=
  empty_text_never_sent id 7 3 .markdown .okResp (some 9) [] rfl

/-!
### Claim C6: handling of rate-limited edit responses
-/

/-- C6 (counterexample): the claim says the scheduler performs no further
edit attempt until at least `r` seconds have elapsed for every retry delay
`r`; but for `retry_after = 10` the code sleeps `min(10, 5) = 5` seconds
and then returns, so edits resume after 5 seconds, before the requested 10
have elapsed. -/
theorem rate_limit_cap_counterexample :
    editMessageText 7 3 ['x'] (.rateLimited (some 10)) = (false, [5], [['x']]) ∧
    (5 : ℚ) < 10 := by
  constructor
  · simp [editMessageText]
    decide
  · decide

/-- C6 (amended): on a rate-limited response carrying retry delay `r`, the
edit call sleeps `min r 5` seconds, returns failure (the tick is skipped),
and the delay `r` is honored in full exactly when `r ≤ 5`; larger delays
are capped at 5 seconds. -/
theorem rate_limit_sleeps_capped (chatId messageId : Nat) (text : Str)
    (r : ℚ) (htext : text ≠ []) :
    editMessageText chatId messageId text (.rateLimited (some r)) =
      (false, [min r 5], [text]) ∧
    (r ≤ 5 → min r 5 = r) := by
  refine ⟨?_, fun h => min_eq_left h⟩
  simp [editMessageText, htext]

/-- Witness for C6 (amended) at the in-range delay 3 of the spec scenario. -/
theorem rate_limit_sleeps_capped_witness :
    (editMessageText 7 3 ['x'] (.rateLimited (some 3)) =
      (false, [min (3:ℚ) 5], [['x']]) ∧
    ((3:ℚ) ≤ 5 → min (3:ℚ) 5 = 3)) :=
  rate_limit_sleeps_capped 7 3 ['x'] 3 (by decide)

/-!
### Claim C9: idempotence of the control-code stripping
-/

/-- C9 (counterexample): stripping is not idempotent.  On the input
ESC ESC `[` `m` `[` `3` `1` `m`, the first pass deletes the CSI sequence
starting at the second ESC, leaving ESC `[` `3` `1` `m`, which is itself a
complete CSI sequence that a second pass deletes entirely. -/
theorem ansiStrip_not_idempotent :
    ansiStrip (ansiStrip [escByte, escByte, Char.ofNat 91, 'm',
        Char.ofNat 91, '3', '1', 'm']) ≠
      ansiStrip [escByte, escByte, Char.ofNat 91, 'm',
        Char.ofNat 91, '3', '1', 'm'] := by
  decide

/-- C9 (amended): stripping is idempotent on every input whose single-pass
output is free of the ESC byte (in particular on every ESC-free string);
in general a deletion can join a preceding ESC with following text into a
new match, so a second pass may strip further. -/
theorem ansiStrip_idempotent_of_no_esc (s : Str)
    (h : ∀ c ∈ ansiStrip s, c ≠ escByte) :
    ansiStrip (ansiStrip s) = ansiStrip s :=
  ansiStrip_of_no_esc h

/-- Witness for C9 (amended): a stripped output with no ESC byte left. -/
theorem ansiStrip_idempotent_of_no_esc_witness :
    ansiStrip (ansiStrip ['a', escByte, Char.ofNat 91, 'm', 'b']) =
      ansiStrip ['a', escByte, Char.ofNat 91, 'm', 'b'] :=
  ansiStrip_idempotent_of_no_esc ['a', escByte, Char.ofNat 91, 'm', 'b']
    (by decide)

/-!
### Claim C4: absence of a wall-clock ceiling in the streaming path
-/

/-- C4 (counterexample): a consumer-loop iteration at wall-clock instant
10000000 (far beyond any five-minute ceiling) with the process still
running neither breaks the loop nor produces any effect: the run is not
terminated, no matter how much time has passed. -/
theorem no_timeout_counterexample :
    (runLoop defaultConfig .partialMode
        [⟨none, 10000000, false⟩] (initState 1 0) ⟨[], []⟩).leftover = none ∧
    (runLoop defaultConfig .partialMode
        [⟨none, 10000000, false⟩] (initState 1 0) ⟨[], []⟩).effs = [] := by
  constructor <;> decide

/-- C4 (amended): `run_gemini_streaming` enforces no wall-clock ceiling.
As long as the process has not exited, the consumer loop never terminates,
whatever the clock reads: termination depends only on the EOF flags and
process exit, and no synthetic exit marker or automatic `terminate`
exists in the streaming path. -/
theorem no_wall_clock_ceiling (cfg : StreamConfig) (mode : StreamMode)
    (events : List LoopEvent) (st : RunState) (env : EditEnv)
    (h : ∀ e ∈ events, e.exited = false) :
    (runLoop cfg mode events st env).leftover = none := by
  induction events generalizing st env with
  | nil => rfl
  | cons e es ih =>
    simp only [runLoop]
    have he : e.exited = false := h e (by simp)
    rw [he]
    simp only [Bool.and_false, Bool.false_eq_true, if_false]
    exact ih _ _ fun x hx => h x (by simp [hx])

/-- Witness for C4 (amended): a two-iteration trace, one of them carrying
stdout data, at huge clock values; the loop is still running. -/
theorem no_wall_clock_ceiling_witness :
    (runLoop defaultConfig .partialMode
        [⟨some ⟨.stdoutCh, some ['h', 'i']⟩, 9000000, false⟩,
         ⟨none, 10000000, false⟩]
        (initState 1 0) ⟨[true], []⟩).leftover = none :=
  no_wall_clock_ceiling defaultConfig .partialMode _ _ _ (by decide)

/-!
### Claim C5: the bounded visible tail of partial mode
-/

theorem visibleTail_spec (cfg : StreamConfig) (sc : Str)
    (hlim : 0 < cfg.tailLimit) :
    (visibleTail cfg sc).length ≤ cfg.tailLimit + 1 ∧
    (cfg.tailLimit < sc.length →
      visibleTail cfg sc = ellipsisChar :: sc.drop (sc.length - cfg.tailLimit) ∧
      (sc.drop (sc.length - cfg.tailLimit)).length = cfg.tailLimit) := by
  unfold visibleTail
  by_cases hlen : cfg.tailLimit < sc.length
  · rw [if_pos hlen, if_neg (Nat.pos_iff_ne_zero.mp hlim)]
    have hd : (sc.drop (sc.length - cfg.tailLimit)).length = cfg.tailLimit := by
      rw [List.length_drop]
      omega
    refine ⟨?_, fun _ => ⟨rfl, hd⟩⟩
    simp [hd]
  · rw [if_neg hlen]
    exact ⟨by omega, fun h => absurd h hlen⟩

/-- C5: every edit attempted by `maybe_update_partial` carries exactly the
visible tail plus the cursor glyph; the trailing window never exceeds
`STREAM_TAIL_LIMIT` characters (so the whole visible tail is at most
`STREAM_TAIL_LIMIT + 1`, the one extra character being the truncation
marker), and whenever the stripped output exceeds the limit the display is
the truncation marker followed by exactly the last `STREAM_TAIL_LIMIT`
characters. -/
theorem partial_tail_bounded (cfg : StreamConfig) (now : ℤ) (sc : Str)
    (st : SchedState) (env : EditEnv) (hlim : 0 < cfg.tailLimit) :
    ∀ e ∈ (maybeUpdatePartial cfg now sc st env).2.2,
      e.payload = visibleTail cfg sc ++ cfg.cursor ∧
      (visibleTail cfg sc).length ≤ cfg.tailLimit + 1 ∧
      (cfg.tailLimit < sc.length →
        visibleTail cfg sc =
          ellipsisChar :: sc.drop (sc.length - cfg.tailLimit) ∧
        (sc.drop (sc.length - cfg.tailLimit)).length = cfg.tailLimit) := by
  intro e he
  have hv := visibleTail_spec cfg sc hlim
  refine ⟨?_, hv.1, hv.2⟩
  simp only [maybeUpdatePartial] at he
  split at he
  · simp at he
  · split at he
    · simp at he
    · split at he
      · simp only [List.mem_singleton] at he
        subst he
        rfl
      · simp at he

/-- Witness for C5 at a concrete over-limit accumulator. -/
theorem partial_tail_bounded_witness :
    (Eff.editMsg 1 (visibleTail ⟨1, 1, 4, 2, [' ']⟩ ['a','b','c','d'] ++
        [' ']) true).payload =
      visibleTail ⟨1, 1, 4, 2, [' ']⟩ ['a','b','c','d'] ++ [' '] ∧
    (visibleTail ⟨1, 1, 4, 2, [' ']⟩ ['a','b','c','d']).length ≤ 2 + 1 ∧
    (2 < (['a','b','c','d'] : Str).length →
      visibleTail ⟨1, 1, 4, 2, [' ']⟩ ['a','b','c','d'] =
        ellipsisChar :: (['a','b','c','d'] : Str).drop (4 - 2) ∧
      ((['a','b','c','d'] : Str).drop (4 - 2)).length = 2) :=
  partial_tail_bounded ⟨1, 1, 4, 2, [' ']⟩ 5 ['a','b','c','d']
    ⟨[], 1, [], 0, 0⟩ ⟨[true], []⟩ (by decide) _ (by decide)

/-!
### Claim C2: sizes of block-mode pushes
-/

/-- C2 (counterexample): with the default configuration, a block-mode
interval edit of a 799-character buffer carries buffer plus the
two-character cursor: 801 characters, exceeding `STREAM_MAX_CHARS = 800`. -/
theorem block_push_size_counterexample :
    ∃ e ∈ (maybeUpdateBlock defaultConfig 20 false false
        ⟨List.replicate 799 'a', 1, [], 0, 0⟩ ⟨[true], []⟩).2.2,
      defaultConfig.maxChars < e.payload.length := by
  decide

theorem flushLoopF_effs_bound (fuel : Nat) (cfg : StreamConfig) (now : ℤ)
    (ex : Bool) (st : SchedState) (env : EditEnv) (h : 0 < cfg.maxChars) :
    ∀ e ∈ (flushLoopF fuel cfg now ex st env).2.2,
      e.payload.length ≤ cfg.maxChars := by
  induction fuel generalizing st env with
  | zero => intro e he; simp [flushLoopF] at he
  | succ fuel ih =>
    intro e he
    simp only [flushLoopF] at he
    split at he
    · next hcond =>
      split at he
      · simp only [List.mem_cons] at he
        rcases he with rfl | rfl | he
        · simp [Eff.payload, List.length_take]
        · simpa [Eff.payload, dotsStr] using h
        · exact ih _ _ e he
      · simp only [List.mem_cons] at he
        rcases he with rfl | he
        · simp [Eff.payload, List.length_take]
        · exact ih _ _ e he
    · simp at he

theorem flushLoopF_buffer_lt (fuel : Nat) (cfg : StreamConfig) (now : ℤ)
    (ex : Bool) (st : SchedState) (env : EditEnv) (h : 0 < cfg.maxChars)
    (hfuel : st.blockBuffer.length ≤ fuel) :
    (flushLoopF fuel cfg now ex st env).1.blockBuffer.length < cfg.maxChars := by
  induction fuel generalizing st env with
  | zero =>
    simp only [flushLoopF]
    omega
  | succ fuel ih =>
    simp only [flushLoopF]
    split
    · next hcond =>
      have hlen : (st.blockBuffer.drop cfg.maxChars).length ≤ fuel := by
        simp only [List.length_drop]
        omega
      split
      · exact ih _ _ hlen
      · exact ih _ _ hlen
    · next hcond =>
      push_neg at hcond
      exact hcond h

/-- C2 (amended): in block mode every full block flushed is exactly
`STREAM_MAX_CHARS` characters (a new message is started for continuation
whenever the process still runs or data remains), the continuation
placeholder is one character, and the force-flush edit is below
`STREAM_MAX_CHARS`; but the interval edit carries the buffer plus the
cursor glyph, up to `STREAM_MAX_CHARS - 1 + |STREAM_CURSOR|` characters
(801 with defaults).  Every edit or send of `maybe_update_block` is
bounded by the larger of these two quantities, not by `STREAM_MAX_CHARS`
itself. -/
theorem block_push_size_bounded (cfg : StreamConfig) (now : ℤ)
    (exited ff : Bool) (st : SchedState) (env : EditEnv)
    (h : 0 < cfg.maxChars) :
    ∀ e ∈ (maybeUpdateBlock cfg now exited ff st env).2.2,
      e.payload.length ≤ max cfg.maxChars (cfg.maxChars - 1 + cfg.cursor.length) := by
  intro e he
  have hbuf : (flushBlocks cfg now exited st env).1.blockBuffer.length <
      cfg.maxChars := by
    unfold flushBlocks
    exact flushLoopF_buffer_lt st.blockBuffer.length cfg now exited st env h
      (Nat.le_refl _)
  simp only [maybeUpdateBlock] at he
  split at he
  · split at he
    · rcases List.mem_append.mp he with he | he
      · exact le_trans (flushLoopF_effs_bound _ _ _ _ _ _ h e he) (le_max_left _ _)
      · simp only [List.mem_singleton] at he
        subst he
        exact le_trans (le_of_lt hbuf) (le_max_left _ _)
    · exact le_trans (flushLoopF_effs_bound _ _ _ _ _ _ h e he) (le_max_left _ _)
  · split at he
    · split at he
      · rcases List.mem_append.mp he with he | he
        · exact le_trans (flushLoopF_effs_bound _ _ _ _ _ _ h e he) (le_max_left _ _)
        · simp only [List.mem_singleton] at he
          subst he
          simp only [Eff.payload, List.length_append]
          exact le_trans (by omega) (le_max_right _ _)
      · exact le_trans (flushLoopF_effs_bound _ _ _ _ _ _ h e he) (le_max_left _ _)
    · exact le_trans (flushLoopF_effs_bound _ _ _ _ _ _ h e he) (le_max_left _ _)

/-- Witness for C2 (amended) on the counterexample configuration: the
801-character interval edit meets the corrected bound `max 800 801`. -/
theorem block_push_size_bounded_witness :
    (Eff.editMsg 1 (List.replicate 799 'a' ++ defaultConfig.cursor)
        true).payload.length ≤
      max defaultConfig.maxChars
        (defaultConfig.maxChars - 1 + defaultConfig.cursor.length) :=
  block_push_size_bounded defaultConfig 20 false false
    ⟨List.replicate 799 'a', 1, [], 0, 0⟩ ⟨[true], []⟩ (by decide) _ (by decide)

/-!
### Claim C3: what survives a failed edit
-/

/-- The scheduler never touches the stream-accumulation fields: one loop
iteration changes them exactly as the chunk-accumulation step does. -/
theorem loopStep_stream (cfg : StreamConfig) (mode : StreamMode)
    (e : LoopEvent) (st : RunState) (env : EditEnv) :
    (loopStep cfg mode e st env).1.fullOutput = (consumeMsg e.msg st).fullOutput ∧
    (loopStep cfg mode e st env).1.stdoutClean = (consumeMsg e.msg st).stdoutClean ∧
    (loopStep cfg mode e st env).1.stderrOutput = (consumeMsg e.msg st).stderrOutput ∧
    (loopStep cfg mode e st env).1.stdoutDone = (consumeMsg e.msg st).stdoutDone ∧
    (loopStep cfg mode e st env).1.stderrDone = (consumeMsg e.msg st).stderrDone := by
  cases mode <;> exact ⟨rfl, rfl, rfl, rfl, rfl⟩

/-- When the buffer is below `STREAM_MAX_CHARS`, the full-block flushing
loop does not run at all. -/
theorem flushBlocks_id (cfg : StreamConfig) (now : ℤ) (ex : Bool)
    (st : SchedState) (env : EditEnv)
    (h : st.blockBuffer.length < cfg.maxChars) :
    flushBlocks cfg now ex st env = (st, env, []) := by
  unfold flushBlocks
  cases hb : st.blockBuffer.length with
  | zero => rfl
  | succ n =>
    simp only [flushLoopF]
    rw [if_neg]
    intro hc
    omega

/-- C3 (counterexample): in block mode, a full-block flush whose edit is
rejected removes the block from the buffer anyway, and no later successful
push ever carries that text again, not even as a subsequence.  The run:
one 5-character stdout chunk under `STREAM_MAX_CHARS = 4`; the flush of
`"aaaa"` fails, the continuation message and the final force flush of
`"Z"` succeed, and `"aaaa"` is gone. -/
theorem data_loss_counterexample :
    Eff.editMsg 1 ['a','a','a','a'] false ∈
      (runStreaming ⟨10, 2, 4, 10, [' ']⟩ .blockMode (some 1) 0
        [⟨some ⟨.stdoutCh, some ['a','a','a','a','Z']⟩, 20, false⟩,
         ⟨some ⟨.stdoutCh, none⟩, 21, false⟩,
         ⟨some ⟨.stderrCh, none⟩, 22, true⟩] 30 ⟨[false, true], [some 2]⟩
        (fun _ => false)).1 ∧
    ∀ e ∈ (runStreaming ⟨10, 2, 4, 10, [' ']⟩ .blockMode (some 1) 0
        [⟨some ⟨.stdoutCh, some ['a','a','a','a','Z']⟩, 20, false⟩,
         ⟨some ⟨.stdoutCh, none⟩, 21, false⟩,
         ⟨some ⟨.stderrCh, none⟩, 22, true⟩] 30 ⟨[false, true], [some 2]⟩
        (fun _ => false)).1,
      e.succeeded = true → ¬ List.Sublist ['a','a','a','a'] e.payload := by
  decide

/-- C3 (amended): a rejected edit loses nothing in partial mode (the whole
scheduler state, hence also the accumulated text the next push is computed
from, is unchanged) and nothing in a block-mode interval edit (the buffer
is retained); moreover the stripped accumulator only ever grows, so every
later push is computed from a superset of the data.  The exception the
counterexample exhibits remains: a failed full-block flush in block mode
discards its block. -/
theorem no_data_loss_on_failed_edit (cfg : StreamConfig) (now : ℤ)
    (sc : Str) (st : SchedState) (env : EditEnv) (exited : Bool)
    (hfail : env.editResults.head? = some false) :
    (maybeUpdatePartial cfg now sc st env).1 = st ∧
    (st.blockBuffer.length < cfg.maxChars →
      (maybeUpdateBlock cfg now exited false st env).1.blockBuffer =
        st.blockBuffer) ∧
    (∀ (mode : StreamMode) (e : LoopEvent) (st' : RunState) (env' : EditEnv),
      st'.stdoutClean <+: (loopStep cfg mode e st' env').1.stdoutClean) := by
  obtain ⟨tl, htl⟩ : ∃ tl, env.editResults = false :: tl := by
    cases henv : env.editResults with
    | nil => rw [henv] at hfail; simp at hfail
    | cons b tl =>
      rw [henv] at hfail
      simp only [List.head?_cons, Option.some.injEq] at hfail
      exact ⟨tl, by rw [hfail]⟩
  have hok : (takeEdit env).1 = false := by
    simp [takeEdit, htl]
  refine ⟨?_, ?_, ?_⟩
  · simp only [maybeUpdatePartial]
    split
    · rfl
    · split
      · rfl
      · split
        · rw [hok]
          simp
        · rfl
  · intro hlt
    simp only [maybeUpdateBlock, flushBlocks_id cfg now exited st env hlt]
    split
    · next hff => exact absurd hff (by simp)
    · split
      · split
        · split <;> rfl
        · rfl
      · rfl
  · intro mode e st' env'
    rw [(loopStep_stream cfg mode e st' env').2.1]
    cases e.msg with
    | none => exact List.prefix_refl _
    | some q =>
      rcases q with ⟨label, chunk⟩
      cases label <;> cases chunk <;>
        simp [consumeMsg, List.prefix_refl, List.prefix_append]

/-- Witness for C3 (amended) on a concrete failing oracle. -/
theorem no_data_loss_on_failed_edit_witness :
    (maybeUpdatePartial ⟨10, 2, 4, 10, [' ']⟩ 20 ['a'] ⟨['b'], 1, [], 0, 0⟩
        ⟨[false], []⟩).1 = ⟨['b'], 1, [], 0, 0⟩ ∧
    ((['b'] : Str).length < 4 →
      (maybeUpdateBlock ⟨10, 2, 4, 10, [' ']⟩ 20 false false
          ⟨['b'], 1, [], 0, 0⟩ ⟨[false], []⟩).1.blockBuffer = ['b']) ∧
    (∀ (mode : StreamMode) (e : LoopEvent) (st' : RunState) (env' : EditEnv),
      st'.stdoutClean <+:
        (loopStep ⟨10, 2, 4, 10, [' ']⟩ mode e st' env').1.stdoutClean) :=
  no_data_loss_on_failed_edit ⟨10, 2, 4, 10, [' ']⟩ 20 ['a']
    ⟨['b'], 1, [], 0, 0⟩ ⟨[false], []⟩ false (by decide)

/-!
### Claim C8: the Finalizer's backtick-token file scan
-/

/-- Structure of a successful token scan: the token is nonempty, contains
neither backtick nor newline, and occurs in the scanned string delimited
by single backticks. -/
theorem firstBacktickToken_spec {s tok : Str}
    (h : firstBacktickToken s = some tok) :
    tok ≠ [] ∧ (∀ c ∈ tok, c ≠ btick ∧ c ≠ '\n') ∧
    [btick] ++ tok ++ [btick] <:+: s := by
  induction s with
  | nil => simp [firstBacktickToken] at h
  | cons c rest ih =>
    simp only [firstBacktickToken] at h
    rcases hth : tokenAtHead (c :: rest) with _ | t
    · rw [hth] at h
      obtain ⟨h1, h2, h3⟩ := ih h
      refine ⟨h1, h2, ?_⟩
      obtain ⟨u, v, huv⟩ := h3
      exact ⟨c :: u, v, by rw [← huv]; rfl⟩
    · rw [hth] at h
      simp only [Option.some.injEq] at h
      subst h
      simp only [tokenAtHead] at hth
      split at hth
      · next hc =>
        split at hth
        · next hcond =>
          simp only [Option.some.injEq] at hth
          obtain ⟨hne, hhead⟩ := hcond
          subst hth
          refine ⟨hne, ?_, ?_⟩
          · intro x hx
            have hp := @List.mem_takeWhile_imp Char
              (fun d => decide ¬(d = btick ∨ d = '\n')) rest x hx
            have hp2 : decide (¬(x = btick ∨ x = '\n')) = true := hp
            have hx2 : ¬(x = btick ∨ x = '\n') := of_decide_eq_true hp2
            push_neg at hx2
            exact hx2
          · obtain ⟨tl, htl⟩ : ∃ tl,
                rest.dropWhile (fun d => ¬(d = btick ∨ d = '\n')) =
                  btick :: tl := by
              rcases hd : rest.dropWhile (fun d => ¬(d = btick ∨ d = '\n')) with
                _ | ⟨x, tl⟩
              · rw [hd] at hhead; simp at hhead
              · rw [hd] at hhead
                simp only [List.head?_cons, Option.some.injEq] at hhead
                exact ⟨tl, by rw [hhead]⟩
            have hrest : rest =
                rest.takeWhile (fun d => ¬(d = btick ∨ d = '\n')) ++
                  btick :: tl := by
              rw [← htl]
              exact (List.takeWhile_append_dropWhile _ _).symm
            refine ⟨[], tl, ?_⟩
            subst hc
            rw [List.nil_append]
            conv_rhs => rw [hrest]
            rw [List.cons_append, List.append_assoc]
            rfl
        · exact absurd hth (by simp)
      · exact absurd hth (by simp)

/-- C8 (counterexample): in block mode the Finalizer returns right after
the force flush, before the file scan.  A completed block-mode run whose
transcript contains a backtick-quoted token naming an existing file (the
file-existence test answers true for every name) performs no file
delivery: its effects are exactly the placeholder send and the force
flush, and the delivered-file result is `none`. -/
theorem file_scan_skipped_in_block_mode :
    (runStreaming defaultConfig .blockMode (some 1) 0
        [⟨some ⟨.stdoutCh, some ("See `notes.txt`".toList)⟩, 0, false⟩,
         ⟨some ⟨.stdoutCh, none⟩, 1, false⟩,
         ⟨some ⟨.stderrCh, none⟩, 2, true⟩] 5 ⟨[true], []⟩
        (fun _ => true)).2 = none ∧
    (runStreaming defaultConfig .blockMode (some 1) 0
        [⟨some ⟨.stdoutCh, some ("See `notes.txt`".toList)⟩, 0, false⟩,
         ⟨some ⟨.stdoutCh, none⟩, 1, false⟩,
         ⟨some ⟨.stderrCh, none⟩, 2, true⟩] 5 ⟨[true], []⟩
        (fun _ => true)).1 =
      [Eff.sendMsg thinkingMsg .markdown,
       Eff.editMsg 1 ("See `notes.txt`".toList) true] ∧
    firstBacktickToken (ansiStrip ("See `notes.txt`".toList)) =
      some ("notes.txt".toList) := by
  refine ⟨by decide, by decide, by decide⟩

/-- C8 (amended): in partial and off modes (but not in block mode), after
the stream ends the Finalizer scans the control-code-stripped,
otherwise untransformed transcript (stdout plus the appended stderr
section) for the first single-backtick-delimited token; it delivers file
content and attachment exactly when that token names an existing file,
and the delivered token indeed occurs backtick-quoted in the unformatted
transcript. -/
theorem file_scan_on_clean_transcript (cfg : StreamConfig)
    (mode : StreamMode) (now : ℤ) (st : RunState) (env : EditEnv)
    (fx : Str → Bool) (hmode : mode ≠ .blockMode) :
    (∀ tok, (finalize cfg mode now st env fx).fileDelivered = some tok ↔
      (firstBacktickToken (ansiStrip
          (if st.stderrOutput ≠ [] then
            st.fullOutput ++ stderrHeader ++ st.stderrOutput
          else st.fullOutput)) = some tok ∧ fx tok = true)) ∧
    (∀ tok, (finalize cfg mode now st env fx).fileDelivered = some tok →
      Eff.sendFileWithContent tok ∈ (finalize cfg mode now st env fx).effs ∧
      tok ≠ [] ∧ (∀ c ∈ tok, c ≠ btick ∧ c ≠ '\n') ∧
      [btick] ++ tok ++ [btick] <:+: ansiStrip
        (if st.stderrOutput ≠ [] then
          st.fullOutput ++ stderrHeader ++ st.stderrOutput
        else st.fullOutput)) := by
  have hdeliv : ∀ tok, (finalize cfg mode now st env fx).fileDelivered = some tok ↔
      (firstBacktickToken (ansiStrip
          (if st.stderrOutput ≠ [] then
            st.fullOutput ++ stderrHeader ++ st.stderrOutput
          else st.fullOutput)) = some tok ∧ fx tok = true) := by
    intro tok
    cases mode
    case blockMode => exact absurd rfl hmode
    all_goals
      simp only [finalize]
      rcases hft : firstBacktickToken (ansiStrip
          (if st.stderrOutput ≠ [] then
            st.fullOutput ++ stderrHeader ++ st.stderrOutput
          else st.fullOutput)) with _ | t
      · simp
      · by_cases hfx : fx t = true
        · simp only [hfx, if_true]
          constructor
          · intro h
            cases h
            exact ⟨rfl, hfx⟩
          · rintro ⟨h1, _⟩
            exact h1
        · simp only [Bool.not_eq_true] at hfx
          simp only [hfx, Bool.false_eq_true, if_false]
          constructor
          · rintro ⟨⟩
          · rintro ⟨h1, h2⟩
            cases h1
            rw [hfx] at h2
            exact absurd h2 (by simp)
  refine ⟨hdeliv, fun tok htok => ?_⟩
  obtain ⟨hft, hfx⟩ := (hdeliv tok).mp htok
  obtain ⟨h1, h2, h3⟩ := firstBacktickToken_spec hft
  refine ⟨?_, h1, h2, h3⟩
  cases mode
  case blockMode => exact absurd rfl hmode
  all_goals
    simp only [finalize]
    rw [hft]
    simp only [hfx, if_true]
    simp

/-- Witness for C8 (amended): a partial-mode finalization whose transcript
quotes `notes.txt`, with every file reported as existing. -/
theorem file_scan_on_clean_transcript_witness :
    (∀ tok, (finalize defaultConfig .partialMode 5
        ⟨"See `notes.txt`".toList, "See `notes.txt`".toList, [], true, true,
          ⟨[], 1, [], 0, 0⟩⟩ ⟨[true], []⟩ (fun _ => true)).fileDelivered =
          some tok ↔
      (firstBacktickToken (ansiStrip
          (if ([] : Str) ≠ [] then
            "See `notes.txt`".toList ++ stderrHeader ++ []
          else "See `notes.txt`".toList)) = some tok ∧ true = true)) ∧
    (∀ tok, (finalize defaultConfig .partialMode 5
        ⟨"See `notes.txt`".toList, "See `notes.txt`".toList, [], true, true,
          ⟨[], 1, [], 0, 0⟩⟩ ⟨[true], []⟩ (fun _ => true)).fileDelivered =
          some tok →
      Eff.sendFileWithContent tok ∈ (finalize defaultConfig .partialMode 5
        ⟨"See `notes.txt`".toList, "See `notes.txt`".toList, [], true, true,
          ⟨[], 1, [], 0, 0⟩⟩ ⟨[true], []⟩ (fun _ => true)).effs ∧
      tok ≠ [] ∧ (∀ c ∈ tok, c ≠ btick ∧ c ≠ '\n') ∧
      [btick] ++ tok ++ [btick] <:+: ansiStrip
        (if ([] : Str) ≠ [] then
          "See `notes.txt`".toList ++ stderrHeader ++ []
        else "See `notes.txt`".toList)) :=
  file_scan_on_clean_transcript defaultConfig .partialMode 5
    ⟨"See `notes.txt`".toList, "See `notes.txt`".toList, [], true, true,
      ⟨[], 1, [], 0, 0⟩⟩ ⟨[true], []⟩ (fun _ => true) (by decide)

/-!
### Claim C1: termination of the consumer loop
-/

theorem processList_stdoutDone (cfg : StreamConfig) (mode : StreamMode) :
    ∀ (es : List LoopEvent) (st : RunState) (env : EditEnv),
      ((processList cfg mode es st env).1.stdoutDone = true ↔
        st.stdoutDone = true ∨ none ∈ outMsgs es) := by
  intro es
  induction es with
  | nil => intro st env; simp [processList, outMsgs]
  | cons e es ih =>
    intro st env
    rw [processList, ih]
    rw [(loopStep_stream cfg mode e st env).2.2.2.1]
    rcases hm : e.msg with _ | ⟨label, chunk⟩
    · simp [consumeMsg, outMsgs, List.filterMap_cons, hm]
    · cases label <;> cases chunk <;>
        simp [consumeMsg, outMsgs, List.filterMap_cons, hm]

theorem processList_stderrDone (cfg : StreamConfig) (mode : StreamMode) :
    ∀ (es : List LoopEvent) (st : RunState) (env : EditEnv),
      ((processList cfg mode es st env).1.stderrDone = true ↔
        st.stderrDone = true ∨ none ∈ errMsgs es) := by
  intro es
  induction es with
  | nil => intro st env; simp [processList, errMsgs]
  | cons e es ih =>
    intro st env
    rw [processList, ih]
    rw [(loopStep_stream cfg mode e st env).2.2.2.2]
    rcases hm : e.msg with _ | ⟨label, chunk⟩
    · simp [consumeMsg, errMsgs, List.filterMap_cons, hm]
    · cases label <;> cases chunk <;>
        simp [consumeMsg, errMsgs, List.filterMap_cons, hm]

theorem processList_stdoutClean (cfg : StreamConfig) (mode : StreamMode) :
    ∀ (es : List LoopEvent) (st : RunState) (env : EditEnv),
      (processList cfg mode es st env).1.stdoutClean =
        st.stdoutClean ++ ((someEntries (outMsgs es)).map ansiStrip).flatten := by
  intro es
  induction es with
  | nil => intro st env; simp [processList, outMsgs, someEntries]
  | cons e es ih =>
    intro st env
    rw [processList, ih]
    rw [(loopStep_stream cfg mode e st env).2.1]
    rcases hm : e.msg with _ | ⟨label, chunk⟩
    · simp [consumeMsg, outMsgs, someEntries, List.filterMap_cons, hm]
    · cases label <;> cases chunk <;>
        simp [consumeMsg, outMsgs, someEntries, List.filterMap_cons, hm]

theorem processList_stderrOutput (cfg : StreamConfig) (mode : StreamMode) :
    ∀ (es : List LoopEvent) (st : RunState) (env : EditEnv),
      (processList cfg mode es st env).1.stderrOutput =
        st.stderrOutput ++ (someEntries (errMsgs es)).flatten := by
  intro es
  induction es with
  | nil => intro st env; simp [processList, errMsgs, someEntries]
  | cons e es ih =>
    intro st env
    rw [processList, ih]
    rw [(loopStep_stream cfg mode e st env).2.2.1]
    rcases hm : e.msg with _ | ⟨label, chunk⟩
    · simp [consumeMsg, errMsgs, someEntries, List.filterMap_cons, hm]
    · cases label <;> cases chunk <;>
        simp [consumeMsg, errMsgs, someEntries, List.filterMap_cons, hm]

theorem processList_cons (cfg : StreamConfig) (mode : StreamMode)
    (e : LoopEvent) (es : List LoopEvent) (st : RunState) (env : EditEnv) :
    processList cfg mode (e :: es) st env =
      processList cfg mode es (loopStep cfg mode e st env).1
        (loopStep cfg mode e st env).2.1 := rfl

theorem runLoop_break_case (cfg : StreamConfig) (mode : StreamMode) :
    ∀ (es : List LoopEvent) (st : RunState) (env : EditEnv)
      (rest : List LoopEvent),
      (runLoop cfg mode es st env).leftover = some rest →
      ∃ p e, es = p ++ e :: rest ∧ e.exited = true ∧
        (runLoop cfg mode es st env).state =
          (processList cfg mode (p ++ [e]) st env).1 ∧
        (runLoop cfg mode es st env).state.stdoutDone = true ∧
        (runLoop cfg mode es st env).state.stderrDone = true := by
  intro es
  induction es with
  | nil => intro st env rest h; simp [runLoop] at h
  | cons e es ih =>
    intro st env rest h
    rw [runLoop] at h ⊢
    split at h
    · next hcond =>
      rw [if_pos hcond]
      have h' : some es = some rest := h
      cases h'
      obtain ⟨⟨h1, h2⟩, h3⟩ : ((loopStep cfg mode e st env).1.stdoutDone = true ∧
          (loopStep cfg mode e st env).1.stderrDone = true) ∧
          e.exited = true := by
        simpa [Bool.and_eq_true] using hcond
      refine ⟨[], e, rfl, h3, ?_, h1, h2⟩
      rw [List.nil_append, processList_cons]
      rfl
    · next hcond =>
      rw [if_neg hcond]
      have h' : (runLoop cfg mode es (loopStep cfg mode e st env).1
          (loopStep cfg mode e st env).2.1).leftover = some rest := h
      obtain ⟨p, e1, hsplit, hex, hstate, hd1, hd2⟩ := ih _ _ _ h'
      refine ⟨e :: p, e1, ?_, hex, ?_, hd1, hd2⟩
      · rw [hsplit]
        rfl
      · rw [List.cons_append, processList_cons]
        exact hstate

theorem runLoop_no_break_case (cfg : StreamConfig) (mode : StreamMode) :
    ∀ (es : List LoopEvent) (st : RunState) (env : EditEnv),
      (runLoop cfg mode es st env).leftover = none →
      ∀ p e rest, es = p ++ e :: rest →
        ¬((processList cfg mode (p ++ [e]) st env).1.stdoutDone = true ∧
          (processList cfg mode (p ++ [e]) st env).1.stderrDone = true ∧
          e.exited = true) := by
  intro es
  induction es with
  | nil =>
    intro st env _ p e rest hsplit
    exact absurd hsplit (by simp)
  | cons e0 es ih =>
    intro st env h p e rest hsplit
    rw [runLoop] at h
    split at h
    · simp at h
    · next hcond =>
      have h' : (runLoop cfg mode es (loopStep cfg mode e0 st env).1
          (loopStep cfg mode e0 st env).2.1).leftover = none := h
      cases p with
      | nil =>
        simp only [List.nil_append, List.cons.injEq] at hsplit
        obtain ⟨he, hes⟩ := hsplit
        subst he
        rintro ⟨hd1, hd2, hex⟩
        apply hcond
        rw [List.nil_append, processList_cons] at hd1 hd2
        have hd1' : (loopStep cfg mode e0 st env).1.stdoutDone = true := hd1
        have hd2' : (loopStep cfg mode e0 st env).1.stderrDone = true := hd2
        simp [hd1', hd2', hex]
      | cons p0 p1 =>
        simp only [List.cons_append, List.cons.injEq] at hsplit
        obtain ⟨he0, hes⟩ := hsplit
        subst he0
        intro hcontra
        apply ih _ _ h' p1 e rest hes
        rw [List.cons_append, processList_cons] at hcontra
        exact hcontra

/-- A prefix of `chunks.map some ++ [none]` that contains the sentinel
`none` must be the whole list (the sentinel occurs only at the end). -/
theorem prefix_with_sentinel_eq {cs : List Str} {l : List (Option Str)}
    (hpre : l <+: cs.map some ++ [none]) (hmem : none ∈ l) :
    l = cs.map some ++ [none] := by
  obtain ⟨t, ht⟩ := hpre
  cases t with
  | nil => simpa using ht
  | cons x xs =>
    exfalso
    have hlen : l.length + (x :: xs).length = cs.length + 1 := by
      have := congrArg List.length ht
      simpa [List.length_append] using this
    have hle : l.length ≤ (cs.map some).length := by
      simp only [List.length_map]
      simp only [List.length_cons] at hlen
      omega
    have hpre2 : l <+: cs.map some :=
      List.prefix_of_prefix_length_le ⟨x :: xs, ht⟩
        (List.prefix_append _ _) hle
    have hnone : none ∈ cs.map some := hpre2.subset hmem
    obtain ⟨a, _, ha⟩ := List.mem_map.mp hnone
    exact absurd ha (by simp)

theorem someEntries_sentinel (cs : List Str) :
    someEntries (cs.map some ++ [none]) = cs := by
  unfold someEntries
  rw [List.filterMap_append]
  simp

/-- C1: over every interleaving of stdout and stderr messages in which
each channel delivers its chunks followed by exactly one EOF sentinel,
the consumer loop terminates if and only if, at the end of some processed
iteration, both EOF sentinels have been observed and the process has
exited; and at the moment it breaks, both channels are fully drained: the
accumulated stripped stdout is exactly the chunkwise-stripped
concatenation of all stdout chunks, and the accumulated stderr is the
concatenation of all stderr chunks. -/
theorem consumer_loop_terminates_iff (cfg : StreamConfig) (mode : StreamMode)
    (events : List LoopEvent) (msgId : Nat) (t0 : ℤ) (env : EditEnv)
    (chunksOut chunksErr : List Str)
    (hout : outMsgs events = chunksOut.map some ++ [none])
    (herr : errMsgs events = chunksErr.map some ++ [none]) :
    (∀ rest, (runLoop cfg mode events (initState msgId t0) env).leftover =
        some rest →
      (runLoop cfg mode events (initState msgId t0) env).state.stdoutDone =
          true ∧
      (runLoop cfg mode events (initState msgId t0) env).state.stderrDone =
          true ∧
      (∃ p e, events = p ++ e :: rest ∧ e.exited = true) ∧
      (runLoop cfg mode events (initState msgId t0) env).state.stdoutClean =
        (chunksOut.map ansiStrip).flatten ∧
      (runLoop cfg mode events (initState msgId t0) env).state.stderrOutput =
        chunksErr.flatten) ∧
    ((runLoop cfg mode events (initState msgId t0) env).leftover = none →
      ∀ p e rest, events = p ++ e :: rest →
        ¬((processList cfg mode (p ++ [e]) (initState msgId t0)
              env).1.stdoutDone = true ∧
          (processList cfg mode (p ++ [e]) (initState msgId t0)
              env).1.stderrDone = true ∧
          e.exited = true)) := by
  constructor
  · intro rest hbr
    obtain ⟨p, e, hsplit, hex, hstate, hd1, hd2⟩ :=
      runLoop_break_case cfg mode events (initState msgId t0) env rest hbr
    refine ⟨hd1, hd2, ⟨p, e, hsplit, hex⟩, ?_, ?_⟩
    · rw [hstate]
      rw [hstate] at hd1
      have hpref : outMsgs (p ++ [e]) <+: outMsgs events := by
        rw [hsplit]
        have h2 : p ++ e :: rest = (p ++ [e]) ++ rest := by simp
        rw [h2]
        unfold outMsgs
        simp only [List.filterMap_append]
        exact List.prefix_append _ _
      rw [hout] at hpref
      have hmem : none ∈ outMsgs (p ++ [e]) := by
        have := (processList_stdoutDone cfg mode (p ++ [e])
          (initState msgId t0) env).mp hd1
        simpa [initState] using this
      have heq := prefix_with_sentinel_eq hpref hmem
      rw [processList_stdoutClean, heq, someEntries_sentinel]
      simp [initState]
    · rw [hstate]
      rw [hstate] at hd2
      have hpref : errMsgs (p ++ [e]) <+: errMsgs events := by
        rw [hsplit]
        have h2 : p ++ e :: rest = (p ++ [e]) ++ rest := by simp
        rw [h2]
        unfold errMsgs
        simp only [List.filterMap_append]
        exact List.prefix_append _ _
      rw [herr] at hpref
      have hmem : none ∈ errMsgs (p ++ [e]) := by
        have := (processList_stderrDone cfg mode (p ++ [e])
          (initState msgId t0) env).mp hd2
        simpa [initState] using this
      have heq := prefix_with_sentinel_eq hpref hmem
      rw [processList_stderrOutput, heq, someEntries_sentinel]
      simp [initState]
  · exact runLoop_no_break_case cfg mode events (initState msgId t0) env

/-- Witness for C1: a three-iteration trace delivering one stdout chunk,
then both sentinels, with the process observed exited on the last
iteration. -/
theorem consumer_loop_terminates_iff_witness :
    (∀ rest, (runLoop defaultConfig .offMode
        [⟨some ⟨.stdoutCh, some ['h', 'i']⟩, 0, false⟩,
         ⟨some ⟨.stdoutCh, none⟩, 1, false⟩,
         ⟨some ⟨.stderrCh, none⟩, 2, true⟩]
        (initState 1 0) ⟨[], []⟩).leftover = some rest →
      (runLoop defaultConfig .offMode
        [⟨some ⟨.stdoutCh, some ['h', 'i']⟩, 0, false⟩,
         ⟨some ⟨.stdoutCh, none⟩, 1, false⟩,
         ⟨some ⟨.stderrCh, none⟩, 2, true⟩]
        (initState 1 0) ⟨[], []⟩).state.stdoutDone = true ∧
      (runLoop defaultConfig .offMode
        [⟨some ⟨.stdoutCh, some ['h', 'i']⟩, 0, false⟩,
         ⟨some ⟨.stdoutCh, none⟩, 1, false⟩,
         ⟨some ⟨.stderrCh, none⟩, 2, true⟩]
        (initState 1 0) ⟨[], []⟩).state.stderrDone = true ∧
      (∃ p e, [⟨some ⟨.stdoutCh, some ['h', 'i']⟩, 0, false⟩,
         ⟨some ⟨.stdoutCh, none⟩, 1, false⟩,
         (⟨some ⟨.stderrCh, none⟩, 2, true⟩ : LoopEvent)] = p ++ e :: rest ∧
        e.exited = true) ∧
      (runLoop defaultConfig .offMode
        [⟨some ⟨.stdoutCh, some ['h', 'i']⟩, 0, false⟩,
         ⟨some ⟨.stdoutCh, none⟩, 1, false⟩,
         ⟨some ⟨.stderrCh, none⟩, 2, true⟩]
        (initState 1 0) ⟨[], []⟩).state.stdoutClean =
        (([['h', 'i']] : List Str).map ansiStrip).flatten ∧
      (runLoop defaultConfig .offMode
        [⟨some ⟨.stdoutCh, some ['h', 'i']⟩, 0, false⟩,
         ⟨some ⟨.stdoutCh, none⟩, 1, false⟩,
         ⟨some ⟨.stderrCh, none⟩, 2, true⟩]
        (initState 1 0) ⟨[], []⟩).state.stderrOutput =
        ([] : List Str).flatten) ∧
    ((runLoop defaultConfig .offMode
        [⟨some ⟨.stdoutCh, some ['h', 'i']⟩, 0, false⟩,
         ⟨some ⟨.stdoutCh, none⟩, 1, false⟩,
         ⟨some ⟨.stderrCh, none⟩, 2, true⟩]
        (initState 1 0) ⟨[], []⟩).leftover = none →
      ∀ p e rest, [⟨some ⟨.stdoutCh, some ['h', 'i']⟩, 0, false⟩,
         ⟨some ⟨.stdoutCh, none⟩, 1, false⟩,
         (⟨some ⟨.stderrCh, none⟩, 2, true⟩ : LoopEvent)] = p ++ e :: rest →
        ¬((processList defaultConfig .offMode (p ++ [e]) (initState 1 0)
              ⟨[], []⟩).1.stdoutDone = true ∧
          (processList defaultConfig .offMode (p ++ [e]) (initState 1 0)
              ⟨[], []⟩).1.stderrDone = true ∧
          e.exited = true)) :=
  consumer_loop_terminates_iff defaultConfig .offMode
    [⟨some ⟨.stdoutCh, some ['h', 'i']⟩, 0, false⟩,
     ⟨some ⟨.stdoutCh, none⟩, 1, false⟩,
     ⟨some ⟨.stderrCh, none⟩, 2, true⟩] 1 0 ⟨[], []⟩
    [['h', 'i']] [] (by decide) (by decide)

/-!
### Claim C7, part 1: properties of the fenced-region parse
-/

theorem splitAtFence_spec :
    ∀ {s a b : Str}, splitAtFence s = some (a, b) →
      s = a ++ b ∧ fenceStr <+: b ∧
      ∀ k, k < a.length → ¬ fenceStr <+: s.drop k := by
  intro s
  induction s with
  | nil => intro a b h; simp [splitAtFence] at h
  | cons c rest ih =>
    intro a b h
    rw [splitAtFence] at h
    split at h
    · next hpre =>
      cases h
      exact ⟨rfl, List.isPrefixOf_iff_prefix.mp hpre, fun k hk => by simp at hk⟩
    · next hpre =>
      rcases hrec : splitAtFence rest with _ | ⟨a1, b1⟩
      · rw [hrec] at h; exact absurd h (by simp)
      · rw [hrec] at h
        cases h
        obtain ⟨heq, hfb, hmin⟩ := ih hrec
        refine ⟨by rw [List.cons_append, ← heq], hfb, ?_⟩
        intro k hk
        cases k with
        | zero =>
          intro hcontra
          exact hpre (List.isPrefixOf_iff_prefix.mpr hcontra)
        | succ k =>
          simp only [List.length_cons, Nat.succ_lt_succ_iff] at hk
          simpa using hmin k hk

theorem splitAtFence_isSome_of_infix :
    ∀ {s : Str}, fenceStr <:+: s → splitAtFence s ≠ none := by
  intro s
  induction s with
  | nil =>
    intro h
    rw [List.infix_nil] at h
    exact absurd h (by simp [fenceStr])
  | cons c rest ih =>
    intro h
    rcases List.infix_cons_iff.mp h with hp | hi
    · rw [splitAtFence, if_pos (List.isPrefixOf_iff_prefix.mpr hp)]
      simp
    · rw [splitAtFence]
      split
      · simp
      · have := ih hi
        rcases hrec : splitAtFence rest with _ | ⟨a1, b1⟩
        · exact absurd hrec this
        · simp [hrec]

theorem splitAtFence_safe {s a b : Str} (h : splitAtFence s = some (a, b)) :
    SafeBefore a := by
  obtain ⟨heq, hfb, hmin⟩ := splitAtFence_spec h
  constructor
  · rintro ⟨u, v, huv⟩
    have hk : u.length < a.length := by
      have := congrArg List.length huv
      simp only [List.length_append, fenceStr, List.length_cons,
        List.length_nil] at this
      omega
    apply hmin u.length hk
    have hs : s = u ++ (fenceStr ++ (v ++ b)) := by
      rw [heq, ← huv]
      simp [List.append_assoc]
    rw [hs, List.drop_left]
    exact ⟨v ++ b, rfl⟩
  · intro hlast
    obtain ⟨a1, ha1⟩ := List.getLast?_eq_some_iff.mp hlast
    obtain ⟨t, ht⟩ := hfb
    have hk : a1.length < a.length := by
      rw [ha1]; simp
    apply hmin a1.length hk
    have hs : s = a1 ++ ([btick] ++ (fenceStr ++ t)) := by
      rw [heq, ha1, ← ht]
      simp [List.append_assoc]
    rw [hs, List.drop_left]
    exact ⟨[btick] ++ t, by simp [fenceStr]⟩

theorem no_fence_prefix_of_safe {a b : Str} (hsafe : SafeBefore a)
    (hne : a ≠ []) : ¬ fenceStr <+: (a ++ b) := by
  intro h
  obtain ⟨t, ht⟩ := h
  match a, hne with
  | [x], _ =>
    simp only [fenceStr, List.cons_append, List.nil_append,
      List.singleton_append, List.cons.injEq] at ht
    exact hsafe.2 (by simp [← ht.1])
  | [x, y], _ =>
    simp only [fenceStr, List.cons_append, List.nil_append,
      List.cons.injEq] at ht
    exact hsafe.2 (by simp [List.getLast?, ← ht.2.1])
  | x :: y :: z :: a1, _ =>
    simp only [fenceStr, List.cons_append, List.nil_append,
      List.cons.injEq] at ht
    obtain ⟨hx, hy, hz, _⟩ := ht
    exact hsafe.1 ⟨[], a1, by simp [fenceStr, ← hx, ← hy, ← hz]⟩

theorem safeBefore_of_cons {c : Char} {a : Str} (h : SafeBefore (c :: a)) :
    SafeBefore a := by
  constructor
  · intro hi
    exact h.1 (List.infix_cons hi)
  · intro hlast
    apply h.2
    cases a with
    | nil => simp at hlast
    | cons d a1 => rw [List.getLast?_cons_cons]; exact hlast

theorem splitAtFence_append_safe :
    ∀ {a b : Str}, SafeBefore a → fenceStr <+: b →
      splitAtFence (a ++ b) = some (a, b) := by
  intro a
  induction a with
  | nil =>
    intro b hsafe hfb
    obtain ⟨t, ht⟩ := hfb
    have hb : b = btick :: btick :: btick :: t := by rw [← ht]; rfl
    subst hb
    rw [List.nil_append, splitAtFence,
      if_pos (show List.isPrefixOf fenceStr (btick :: btick :: btick :: t) = true from
        List.isPrefixOf_iff_prefix.mpr ⟨t, rfl⟩)]
  | cons c a1 ih =>
    intro b hsafe hfb
    have hnp : ¬ List.isPrefixOf fenceStr (c :: (a1 ++ b)) = true := by
      intro hcontra
      exact @no_fence_prefix_of_safe (c :: a1) b hsafe (by simp)
        (by rw [List.cons_append]
            exact List.isPrefixOf_iff_prefix.mp hcontra)
    rw [List.cons_append, splitAtFence, if_neg hnp,
      ih (safeBefore_of_cons hsafe) hfb]

theorem findFence_some :
    ∀ {s pre block post : Str}, findFence s = some (pre, block, post) →
      ∃ mid, s = pre ++ block ++ post ∧
        block = fenceStr ++ mid ++ fenceStr ∧
        SafeBefore pre ∧ SafeBefore mid := by
  intro s pre block post h
  unfold findFence at h
  rcases h1 : splitAtFence s with _ | ⟨a1, b1⟩
  · simp only [h1] at h; exact absurd h (by simp)
  · simp only [h1] at h
    rcases h2 : splitAtFence (b1.drop 3) with _ | ⟨a2, b2⟩
    · simp only [h2] at h; exact absurd h (by simp)
    · simp only [h2] at h
      simp only [Option.some.injEq, Prod.mk.injEq] at h
      obtain ⟨hpre, hblock, hpost⟩ := h
      obtain ⟨heq1, hfb1, _⟩ := splitAtFence_spec h1
      obtain ⟨heq2, hfb2, _⟩ := splitAtFence_spec h2
      obtain ⟨t1, ht1⟩ := hfb1
      obtain ⟨t2, ht2⟩ := hfb2
      have hb1 : b1 = fenceStr ++ t1 := ht1.symm
      have hb2 : b2 = fenceStr ++ t2 := ht2.symm
      have hd1 : b1.drop 3 = t1 := by
        rw [hb1]
        have : fenceStr.length = 3 := by simp [fenceStr]
        rw [← this, List.drop_left]
      have hd2 : b2.drop 3 = t2 := by
        rw [hb2]
        have : fenceStr.length = 3 := by simp [fenceStr]
        rw [← this, List.drop_left]
      refine ⟨a2, ?_, ?_, ?_, ?_⟩
      · rw [← hpre, ← hblock, ← hpost, heq1, hb1, hd2, ← hd1, heq2, hb2]
        simp [List.append_assoc]
      · rw [← hblock]
      · rw [← hpre]; exact splitAtFence_safe h1
      · rw [← hblock] at *
        exact splitAtFence_safe h2

theorem findFence_shape {pre mid post : Str} (hpre : SafeBefore pre)
    (hmid : SafeBefore mid) :
    findFence (pre ++ (fenceStr ++ mid ++ fenceStr) ++ post) =
      some (pre, fenceStr ++ mid ++ fenceStr, post) := by
  unfold findFence
  have h1 : splitAtFence (pre ++ (fenceStr ++ mid ++ fenceStr) ++ post) =
      some (pre, fenceStr ++ (mid ++ fenceStr ++ post)) := by
    have h0 := @splitAtFence_append_safe pre
      (fenceStr ++ (mid ++ fenceStr ++ post)) hpre
      ⟨mid ++ fenceStr ++ post, rfl⟩
    rw [← h0]
    congr 1
    simp [List.append_assoc]
  simp only [h1]
  have hd : (fenceStr ++ (mid ++ fenceStr ++ post)).drop 3 =
      mid ++ fenceStr ++ post := by
    have h3 : fenceStr.length = 3 := by simp [fenceStr]
    rw [← h3, List.drop_left]
  rw [hd]
  have h2 : splitAtFence (mid ++ fenceStr ++ post) =
      some (mid, fenceStr ++ post) := by
    have h0 := @splitAtFence_append_safe mid (fenceStr ++ post) hmid
      ⟨post, rfl⟩
    rw [← h0]
    congr 1
    simp [List.append_assoc]
  simp only [h2]
  have hd2 : (fenceStr ++ post).drop 3 = post := by
    have h3 : fenceStr.length = 3 := by simp [fenceStr]
    rw [← h3, List.drop_left]
  rw [hd2]

theorem findFence_some_pair {s pre block post : Str}
    (h : findFence s = some (pre, block, post)) : PairIn s := by
  obtain ⟨mid, heq, hblock, _, _⟩ := findFence_some h
  refine ⟨pre, mid ++ fenceStr ++ post, ?_, ⟨mid, post, rfl⟩⟩
  rw [heq, hblock]
  simp [List.append_assoc]

theorem pair_findFence : ∀ {s : Str}, PairIn s → findFence s ≠ none := by
  rintro s ⟨a, u, heq, hinf⟩
  obtain ⟨u1, u2, hu⟩ := hinf
  unfold findFence
  rcases h1 : splitAtFence s with _ | ⟨a0, b0⟩
  · exfalso
    apply splitAtFence_isSome_of_infix _ h1
    exact ⟨a, u, heq.symm⟩
  · obtain ⟨heq0, hfb0, hmin0⟩ := splitAtFence_spec h1
    rcases h2 : splitAtFence (b0.drop 3) with _ | ⟨a2, b2⟩
    · exfalso
      apply splitAtFence_isSome_of_infix _ h2
      have hle : a0.length ≤ a.length := by
        by_contra hlt
        push_neg at hlt
        apply hmin0 a.length hlt
        rw [heq]
        have : a ++ fenceStr ++ u = a ++ (fenceStr ++ u) := by
          simp [List.append_assoc]
        rw [this, List.drop_left]
        exact ⟨u, rfl⟩
      have hq : fenceStr <+: s.drop (a.length + 3 + u1.length) := by
        have hs2 : s = (a ++ fenceStr ++ u1) ++ (fenceStr ++ u2) := by
          rw [heq, ← hu]
          simp [List.append_assoc]
        have hlen : (a ++ fenceStr ++ u1).length =
            a.length + 3 + u1.length := by
          simp [fenceStr]
          omega
        rw [hs2, ← hlen, List.drop_left]
        exact ⟨u2, rfl⟩
      have hb0d : b0.drop 3 = s.drop (a0.length + 3) := by
        rw [heq0, ← List.drop_drop, List.drop_left]
      have hsplit : s.drop (a.length + 3 + u1.length) =
          (b0.drop 3).drop (a.length + 3 + u1.length - (a0.length + 3)) := by
        rw [hb0d, List.drop_drop]
        congr 1
        omega
      rw [hsplit] at hq
      exact hq.isInfix.trans (List.drop_suffix _ _).isInfix
    · simp only [h1, h2]
      simp

theorem findFence_post_len {s pre block post : Str}
    (h : findFence s = some (pre, block, post)) :
    post.length + 6 ≤ s.length := by
  obtain ⟨mid, heq, hblock, _, _⟩ := findFence_some h
  have := congrArg List.length heq
  rw [hblock] at this
  simp only [List.length_append, fenceStr, List.length_cons,
    List.length_nil] at this
  omega

/-!
### Claim C7, part 2: the part list produced by the fence split
-/

theorem findFence_nil : findFence [] = none := rfl

theorem splitFencesF_irrel :
    ∀ fuel1 : Nat, ∀ {fuel2 : Nat} {s : Str}, s.length ≤ fuel1 →
      s.length ≤ fuel2 → splitFencesF fuel1 s = splitFencesF fuel2 s := by
  intro fuel1
  induction fuel1 with
  | zero =>
    intro fuel2 s h1 h2
    have hs : s = [] := List.length_eq_zero.mp (Nat.le_zero.mp h1)
    subst hs
    cases fuel2 with
    | zero => rfl
    | succ m => simp [splitFencesF, findFence_nil]
  | succ k ih =>
    intro fuel2 s h1 h2
    cases fuel2 with
    | zero =>
      have hs : s = [] := List.length_eq_zero.mp (Nat.le_zero.mp h2)
      subst hs
      simp [splitFencesF, findFence_nil]
    | succ m =>
      rcases hf : findFence s with _ | ⟨pre, block, post⟩
      · simp [splitFencesF, hf]
      · have hlen := findFence_post_len hf
        simp only [splitFencesF, hf]
        have hp : splitFencesF k post = splitFencesF m post :=
          ih (by omega) (by omega)
        rw [hp]

theorem splitFences_eq_single {s : Str} (h : findFence s = none) :
    splitFences s = [s] := by
  simp only [splitFences]
  cases hl : s.length with
  | zero => rfl
  | succ k => simp [splitFencesF, h]

theorem splitFences_cons {s pre block post : Str}
    (h : findFence s = some (pre, block, post)) :
    splitFences s = pre :: block :: splitFences post := by
  have hlen := findFence_post_len h
  simp only [splitFences]
  cases hl : s.length with
  | zero => omega
  | succ k =>
    simp only [splitFencesF, h]
    have hp : splitFencesF k post = splitFencesF post.length post :=
      splitFencesF_irrel k (by omega) le_rfl
    rw [hp]

theorem fenceBlocks_none {s : Str} (h : findFence s = none) :
    fenceBlocks s = [] := by
  simp [fenceBlocks, splitFences_eq_single h, oddParts]

theorem fenceBlocks_cons {s pre block post : Str}
    (h : findFence s = some (pre, block, post)) :
    fenceBlocks s = block :: fenceBlocks post := by
  simp [fenceBlocks, splitFences_cons h, oddParts]

theorem fenceBlocks_infix_aux :
    ∀ (fuel : Nat) (s b : Str), s.length ≤ fuel → b ∈ fenceBlocks s →
      b <:+: s := by
  intro fuel
  induction fuel with
  | zero =>
    intro s b h1 hb
    have hs : s = [] := List.length_eq_zero.mp (Nat.le_zero.mp h1)
    subst hs
    rw [fenceBlocks_none findFence_nil] at hb
    simp at hb
  | succ k ih =>
    intro s b h1 hb
    rcases hf : findFence s with _ | ⟨pre, block, post⟩
    · rw [fenceBlocks_none hf] at hb
      simp at hb
    · rw [fenceBlocks_cons hf] at hb
      have hlen := findFence_post_len hf
      obtain ⟨mid, heq, hblock, _, _⟩ := findFence_some hf
      rcases List.mem_cons.mp hb with rfl | hb2
      · exact ⟨pre, post, heq.symm⟩
      · have hinf : b <:+: post := ih post b (by omega) hb2
        have hps : post <:+: s := ⟨pre ++ block, [], by simp [heq]⟩
        exact hinf.trans hps

theorem fenceBlocks_infix {s b : Str} (hb : b ∈ fenceBlocks s) : b <:+: s :=
  fenceBlocks_infix_aux s.length s b le_rfl hb

theorem splitAtFence_some_has_fence {s a b : Str}
    (h : splitAtFence s = some (a, b)) : fenceStr <:+: s := by
  obtain ⟨heq, hfb, _⟩ := splitAtFence_spec h
  obtain ⟨t, ht⟩ := hfb
  exact ⟨a, t, by rw [heq, List.append_assoc, ht]⟩

theorem splitAtFence_none {s : Str} (h : splitAtFence s = none) :
    ¬ fenceStr <:+: s := fun hi => splitAtFence_isSome_of_infix hi h

theorem findFence_none_of_no_fence {s : Str} (h : ¬ fenceStr <:+: s) :
    findFence s = none := by
  unfold findFence
  rcases h1 : splitAtFence s with _ | ⟨a, b⟩
  · rfl
  · exact absurd (splitAtFence_some_has_fence h1) h

theorem findFence_sandwich_none {A T : Str} (hA : SafeBefore A)
    (hT : ¬ fenceStr <:+: T) : findFence (A ++ fenceStr ++ T) = none := by
  unfold findFence
  have h1 : splitAtFence (A ++ fenceStr ++ T) = some (A, fenceStr ++ T) := by
    have h0 := @splitAtFence_append_safe A (fenceStr ++ T) hA ⟨T, rfl⟩
    rw [← h0, List.append_assoc]
  simp only [h1]
  have hd : (fenceStr ++ T).drop 3 = T := by
    have h3 : fenceStr.length = 3 := by simp [fenceStr]
    rw [← h3, List.drop_left]
  rw [hd]
  rcases h2 : splitAtFence T with _ | ⟨a2, b2⟩
  · rfl
  · exact absurd (splitAtFence_some_has_fence h2) hT

theorem findFence_none_cases {p : Str} (h : findFence p = none) :
    ¬ fenceStr <:+: p ∨
      ∃ a t, p = a ++ fenceStr ++ t ∧ SafeBefore a ∧ ¬ fenceStr <:+: t := by
  unfold findFence at h
  rcases h1 : splitAtFence p with _ | ⟨a, b⟩
  · exact Or.inl (splitAtFence_none h1)
  · simp only [h1] at h
    rcases h2 : splitAtFence (b.drop 3) with _ | ⟨a2, b2⟩
    · obtain ⟨heq, hfb, _⟩ := splitAtFence_spec h1
      obtain ⟨t, ht⟩ := hfb
      refine Or.inr ⟨a, t, ?_, splitAtFence_safe h1, ?_⟩
      · rw [heq, List.append_assoc, ht]
      · have hd : b.drop 3 = t := by
          rw [← ht]
          have h3 : fenceStr.length = 3 := by simp [fenceStr]
          rw [← h3, List.drop_left]
        rw [← hd]
        exact splitAtFence_none h2
    · simp only [h2] at h
      exact absurd h (by simp)

/-!
### Claim C7, part 3: the three substitutions never touch backticks
-/

theorem getLast?_of_suffix {l1 l2 : Str} (h : l1 <:+ l2) (hne : l1 ≠ []) :
    l2.getLast? = l1.getLast? := by
  obtain ⟨w, hw⟩ := h
  rw [← hw]
  exact List.getLast?_append_of_ne_nil w hne

theorem getLast?_append_cases {l1 l2 : Str} {a : Char}
    (h : (l1 ++ l2).getLast? = some a) :
    l2.getLast? = some a ∨ (l2 = [] ∧ l1.getLast? = some a) := by
  cases l2 with
  | nil => exact Or.inr ⟨rfl, by simpa using h⟩
  | cons d dr =>
    refine Or.inl ?_
    rw [← List.getLast?_append_of_ne_nil l1 (show d :: dr ≠ [] by simp)]
    exact h

theorem fence_infix_append {out X : Str} (hout : ∀ x ∈ out, x ≠ btick)
    (h : fenceStr <:+: out ++ X) : fenceStr <:+: X := by
  induction out with
  | nil => simpa using h
  | cons x out ih =>
    rcases List.infix_cons_iff.mp h with hp | hi
    · exfalso
      rw [show fenceStr = btick :: [btick, btick] from rfl] at hp
      have hx := (List.cons_prefix_cons.mp hp).1
      exact hout x (by simp) hx.symm
    · exact ih (fun y hy => hout y (by simp [hy])) hi

theorem takeWhile_append_stop {p : Char → Bool} {l1 l2 : Str}
    (h2 : ∀ x, l2.head? = some x → p x = false) :
    (l1 ++ l2).takeWhile p = l1.takeWhile p := by
  induction l1 with
  | nil =>
    cases l2 with
    | nil => rfl
    | cons y l2r => simp [List.takeWhile_cons, h2 y rfl]
  | cons x l1r ih =>
    cases hpx : p x with
    | false => simp [List.takeWhile_cons, hpx]
    | true => simp [List.takeWhile_cons, hpx, ih]

theorem dropWhile_append_stop {p : Char → Bool} {l1 l2 : Str}
    (h2 : ∀ x, l2.head? = some x → p x = false) :
    (l1 ++ l2).dropWhile p = l1.dropWhile p ++ l2 := by
  induction l1 with
  | nil =>
    cases l2 with
    | nil => rfl
    | cons y l2r => simp [List.dropWhile_cons, h2 y rfl]
  | cons x l1r ih =>
    cases hpx : p x with
    | false => simp [List.dropWhile_cons, hpx]
    | true => simp [List.dropWhile_cons, hpx, ih]

theorem dn_append (a b : Str) :
    doubleNewlines (a ++ b) = doubleNewlines a ++ doubleNewlines b := by
  induction a with
  | nil => rfl
  | cons c ar ih =>
    rw [List.cons_append]
    simp only [doubleNewlines]
    split <;> simp [ih]

theorem dn_eq_nil {s : Str} (h : doubleNewlines s = []) : s = [] := by
  cases s with
  | nil => rfl
  | cons c rest =>
    simp only [doubleNewlines] at h
    split at h <;> simp at h

theorem dn_prefix_btick :
    ∀ (s : Str) (n : Nat), List.replicate n btick <+: doubleNewlines s →
      List.replicate n btick <+: s := by
  intro s
  induction s with
  | nil =>
    intro n h
    simp only [doubleNewlines] at h
    rw [List.prefix_nil.mp h]
  | cons c rest ih =>
    intro n h
    cases n with
    | zero => exact List.nil_prefix
    | succ m =>
      rw [List.replicate_succ] at h ⊢
      simp only [doubleNewlines] at h
      split at h
      · next hc =>
        exfalso
        have hx := (List.cons_prefix_cons.mp h).1
        exact absurd hx (by decide)
      · next hc =>
        have h1 := List.cons_prefix_cons.mp h
        exact List.cons_prefix_cons.mpr ⟨h1.1, ih m h1.2⟩

theorem dn_infix_transfer {s : Str} (h : fenceStr <:+: doubleNewlines s) :
    fenceStr <:+: s := by
  induction s with
  | nil =>
    simp only [doubleNewlines] at h
    rw [List.infix_nil] at h
    exact absurd h (by decide)
  | cons c rest ih =>
    simp only [doubleNewlines] at h
    split at h
    · next hc =>
      rcases List.infix_cons_iff.mp h with hp | h2
      · exfalso
        rw [show fenceStr = btick :: [btick, btick] from rfl] at hp
        exact absurd (List.cons_prefix_cons.mp hp).1 (by decide)
      · rcases List.infix_cons_iff.mp h2 with hp | h3
        · exfalso
          rw [show fenceStr = btick :: [btick, btick] from rfl] at hp
          exact absurd (List.cons_prefix_cons.mp hp).1 (by decide)
        · exact List.infix_cons (ih h3)
    · next hc =>
      rcases List.infix_cons_iff.mp h with hp | h2
      · rw [show fenceStr = btick :: [btick, btick] from rfl] at hp ⊢
        have h1 := List.cons_prefix_cons.mp hp
        have h2b := dn_prefix_btick rest 2 h1.2
        exact (List.cons_prefix_cons.mpr ⟨h1.1, h2b⟩).isInfix
      · exact List.infix_cons (ih h2)

theorem dn_last : ∀ s : Str, (doubleNewlines s).getLast? = some btick →
    s.getLast? = some btick := by
  intro s
  induction s with
  | nil => intro h; simp [doubleNewlines] at h
  | cons c rest ih =>
    intro h
    simp only [doubleNewlines] at h
    split at h
    · next hc =>
      rw [List.getLast?_cons_cons] at h
      rcases hr : doubleNewlines rest with _ | ⟨d, dr⟩
      · rw [hr] at h
        simp [btick] at h
      · rw [hr, List.getLast?_cons_cons, ← hr] at h
        have h3 := ih h
        have hne : rest ≠ [] := by
          intro h0
          rw [h0] at hr
          simp [doubleNewlines] at hr
        cases rest with
        | nil => exact absurd rfl hne
        | cons e er => rw [List.getLast?_cons_cons]; exact h3
    · next hc =>
      rcases hr : doubleNewlines rest with _ | ⟨d, dr⟩
      · rw [hr] at h
        have hc2 : c = btick := by simpa using h
        have hrest : rest = [] := dn_eq_nil hr
        subst hrest
        simp [hc2]
      · rw [hr, List.getLast?_cons_cons, ← hr] at h
        have h3 := ih h
        have hne : rest ≠ [] := by
          intro h0
          rw [h0] at hr
          simp [doubleNewlines] at hr
        cases rest with
        | nil => exact absurd rfl hne
        | cons e er => rw [List.getLast?_cons_cons]; exact h3

theorem breakSubF_irrel :
    ∀ fuel1 : Nat, ∀ {fuel2 : Nat} {prev : Option Char} {s : Str},
      s.length ≤ fuel1 → s.length ≤ fuel2 →
      breakSubF fuel1 prev s = breakSubF fuel2 prev s := by
  intro fuel1
  induction fuel1 with
  | zero =>
    intro fuel2 prev s h1 h2
    have hs : s = [] := List.length_eq_zero.mp (Nat.le_zero.mp h1)
    subst hs
    cases fuel2 <;> rfl
  | succ k ih =>
    intro fuel2 prev s h1 h2
    cases fuel2 with
    | zero =>
      have hs : s = [] := List.length_eq_zero.mp (Nat.le_zero.mp h2)
      subst hs
      rfl
    | succ m =>
      cases s with
      | nil => rfl
      | cons c rest =>
        simp only [List.length_cons] at h1 h2
        simp only [breakSubF]
        split
        · have hdl : (rest.dropWhile pyWs).length ≤ rest.length :=
            (List.dropWhile_suffix pyWs :
              rest.dropWhile pyWs <:+ rest).length_le
          congr 1
          exact ih (by omega) (by omega)
        · congr 1
          exact ih (by omega) (by omega)

theorem breakSubF_ne_nil {fuel : Nat} {prev : Option Char} {c : Char}
    {rest : Str} (hk : 0 < fuel) :
    breakSubF fuel prev (c :: rest) ≠ [] := by
  cases fuel with
  | zero => omega
  | succ k =>
    simp only [breakSubF]
    split
    · intro hcontra
      rcases List.append_eq_nil.mp hcontra with ⟨hout, _⟩
      split at hout <;> simp at hout
    · simp

theorem breakSubF_btick_step (fuel : Nat) (prev : Option Char) (s : Str) :
    breakSubF (fuel + 1) prev (btick :: s) =
      btick :: breakSubF fuel (some btick) s := by
  simp only [breakSubF]
  rw [if_neg (by decide)]

theorem breakSubF_prefix_btick :
    ∀ (fuel : Nat) (prev : Option Char) (s : Str) (n : Nat),
      List.replicate n btick <+: breakSubF fuel prev s →
      List.replicate n btick <+: s := by
  intro fuel
  induction fuel with
  | zero =>
    intro prev s n h
    simp only [breakSubF] at h
    rw [List.prefix_nil.mp h]
    exact List.nil_prefix
  | succ k ih =>
    intro prev s n h
    cases s with
    | nil =>
      simp only [breakSubF] at h
      rw [List.prefix_nil.mp h]
    | cons c rest =>
      cases n with
      | zero => exact List.nil_prefix
      | succ m =>
        simp only [breakSubF] at h
        split at h
        · next hws =>
          exfalso
          rw [List.replicate_succ] at h
          split at h
          · next hsent =>
            rw [List.cons_append] at h
            exact absurd (List.cons_prefix_cons.mp h).1 (by decide)
          · next hsent =>
            rw [List.cons_append] at h
            have hbc := (List.cons_prefix_cons.mp h).1
            rw [← hbc] at hws
            exact absurd hws (by decide)
        · next hws =>
          rw [List.replicate_succ] at h ⊢
          have h1 := List.cons_prefix_cons.mp h
          exact List.cons_prefix_cons.mpr ⟨h1.1, ih (some c) rest m h1.2⟩

theorem breakSubF_infix_transfer :
    ∀ (fuel : Nat) (prev : Option Char) (s : Str),
      fenceStr <:+: breakSubF fuel prev s → fenceStr <:+: s := by
  intro fuel
  induction fuel with
  | zero =>
    intro prev s h
    simp only [breakSubF] at h
    rw [List.infix_nil] at h
    exact absurd h (by decide)
  | succ k ih =>
    intro prev s h
    cases s with
    | nil =>
      simp only [breakSubF] at h
      rw [List.infix_nil] at h
      exact absurd h (by decide)
    | cons c rest =>
      simp only [breakSubF] at h
      split at h
      · next hws =>
        refine List.infix_cons
          ((ih _ _ (fence_infix_append ?_ h)).trans
            (List.dropWhile_suffix pyWs :
              rest.dropWhile pyWs <:+ rest).isInfix)
        intro x hx
        split at hx
        · have hxn : x = '\n' := by simpa using hx
          subst hxn
          decide
        · rcases List.mem_cons.mp hx with rfl | hx2
          · intro hcontra
            rw [hcontra] at hws
            exact absurd hws (by decide)
          · have hwx := @List.mem_takeWhile_imp Char pyWs rest x hx2
            intro hcontra
            rw [hcontra] at hwx
            exact absurd hwx (by decide)
      · next hws =>
        rcases List.infix_cons_iff.mp h with hp | h2
        · rw [show fenceStr = btick :: [btick, btick] from rfl] at hp ⊢
          have h1 := List.cons_prefix_cons.mp hp
          have h2b := breakSubF_prefix_btick k (some c) rest 2 h1.2
          exact (List.cons_prefix_cons.mpr ⟨h1.1, h2b⟩).isInfix
        · exact List.infix_cons (ih _ _ h2)

theorem breakSubF_last :
    ∀ (fuel : Nat) (prev : Option Char) (s : Str), s.length ≤ fuel →
      (breakSubF fuel prev s).getLast? = some btick →
      s.getLast? = some btick := by
  intro fuel
  induction fuel with
  | zero =>
    intro prev s hf h
    have hs : s = [] := List.length_eq_zero.mp (Nat.le_zero.mp hf)
    subst hs
    simp [breakSubF] at h
  | succ k ih =>
    intro prev s hf h
    cases s with
    | nil => simp [breakSubF] at h
    | cons c rest =>
      have hrl : rest.length ≤ k := by
        simp only [List.length_cons] at hf
        omega
      simp only [breakSubF] at h
      split at h
      · next hws =>
        rcases getLast?_append_cases h with h2 | ⟨hnil, hout⟩
        · have hdl : (rest.dropWhile pyWs).length ≤ rest.length :=
            (List.dropWhile_suffix pyWs :
              rest.dropWhile pyWs <:+ rest).length_le
          have h3 := ih _ _ (by omega) h2
          have hne : rest.dropWhile pyWs ≠ [] := by
            intro h0
            rw [h0] at h3
            simp at h3
          have h4 : rest.getLast? = some btick := by
            rw [getLast?_of_suffix
              (List.dropWhile_suffix pyWs : rest.dropWhile pyWs <:+ rest) hne]
            exact h3
          have hrne : rest ≠ [] := by
            intro h0
            rw [h0] at h4
            simp at h4
          cases rest with
          | nil => exact absurd rfl hrne
          | cons e er => rw [List.getLast?_cons_cons]; exact h4
        · exfalso
          split at hout
          · simp [btick] at hout
          · have hmem := List.mem_of_mem_getLast? hout
            rcases List.mem_cons.mp hmem with hbc | hbt
            · rw [← hbc] at hws
              exact absurd hws (by decide)
            · have hwx := @List.mem_takeWhile_imp Char pyWs rest btick hbt
              exact absurd hwx (by decide)
      · next hws =>
        rcases hbs : breakSubF k (some c) rest with _ | ⟨d, dr⟩
        · rw [hbs] at h
          have hc2 : c = btick := by simpa using h
          have hrest : rest = [] := by
            cases rest with
            | nil => rfl
            | cons e er =>
              have hk : 0 < k := by
                simp only [List.length_cons] at hf hrl
                omega
              exact absurd hbs (breakSubF_ne_nil hk)
          subst hrest
          simp [hc2]
        · rw [hbs, List.getLast?_cons_cons, ← hbs] at h
          have h3 := ih _ _ hrl h
          have hrne : rest ≠ [] := by
            intro h0
            rw [h0] at h3
            simp at h3
          cases rest with
          | nil => exact absurd rfl hrne
          | cons e er => rw [List.getLast?_cons_cons]; exact h3

theorem breakSubF_split :
    ∀ (fuel : Nat) (prev : Option Char) (a b2 : Str),
      a.length + (b2.length + 1) ≤ fuel →
      breakSubF fuel prev (a ++ btick :: b2) =
        breakSubF a.length prev a ++
          btick :: breakSubF b2.length (some btick) b2 := by
  intro fuel
  induction fuel with
  | zero =>
    intro prev a b2 hf
    omega
  | succ k ih =>
    intro prev a b2 hf
    cases a with
    | nil =>
      rw [List.nil_append, breakSubF_btick_step]
      have hirr : breakSubF k (some btick) b2 =
          breakSubF b2.length (some btick) b2 :=
        breakSubF_irrel k (by simp at hf; omega) le_rfl
      rw [hirr]
      rfl
    | cons c a2 =>
      have hf2 : a2.length + (b2.length + 1) ≤ k := by
        simp only [List.length_cons, List.length_append] at hf ⊢
        omega
      rw [List.cons_append]
      simp only [List.length_cons]
      simp only [breakSubF]
      split
      · next hws =>
        have hhead : ∀ x : Char, (btick :: b2).head? = some x → pyWs x = false := by
          intro x hx
          cases hx
          decide
        have htw : (a2 ++ btick :: b2).takeWhile pyWs = a2.takeWhile pyWs :=
          takeWhile_append_stop hhead
        have hdw : (a2 ++ btick :: b2).dropWhile pyWs =
            a2.dropWhile pyWs ++ btick :: b2 :=
          dropWhile_append_stop hhead
        rw [htw, hdw]
        have hdl : (a2.dropWhile pyWs).length ≤ a2.length :=
          (List.dropWhile_suffix pyWs :
            a2.dropWhile pyWs <:+ a2).length_le
        rw [ih _ _ _ (by omega)]
        rw [show ∀ p : Option Char,
            breakSubF (a2.dropWhile pyWs).length p (a2.dropWhile pyWs) =
              breakSubF a2.length p (a2.dropWhile pyWs) from
          fun p => breakSubF_irrel _ le_rfl (by omega)]
        simp [List.append_assoc]
      · next hws =>
        rw [ih (some c) a2 b2 hf2]
        simp

theorem collapseNewlinesF_irrel :
    ∀ fuel1 : Nat, ∀ {fuel2 : Nat} {s : Str}, s.length ≤ fuel1 →
      s.length ≤ fuel2 →
      collapseNewlinesF fuel1 s = collapseNewlinesF fuel2 s := by
  intro fuel1
  induction fuel1 with
  | zero =>
    intro fuel2 s h1 h2
    have hs : s = [] := List.length_eq_zero.mp (Nat.le_zero.mp h1)
    subst hs
    cases fuel2 <;> rfl
  | succ k ih =>
    intro fuel2 s h1 h2
    cases fuel2 with
    | zero =>
      have hs : s = [] := List.length_eq_zero.mp (Nat.le_zero.mp h2)
      subst hs
      rfl
    | succ m =>
      cases s with
      | nil => rfl
      | cons c rest =>
        simp only [List.length_cons] at h1 h2
        simp only [collapseNewlinesF]
        split
        · have hdl : (rest.dropWhile fun d => d = '\n').length ≤ rest.length :=
            (List.dropWhile_suffix (fun d => d = '\n') :
              (rest.dropWhile fun d => d = '\n') <:+ rest).length_le
          congr 1
          exact ih (by omega) (by omega)
        · congr 1
          exact ih (by omega) (by omega)

theorem collapseNewlinesF_ne_nil {fuel : Nat} {c : Char} {rest : Str}
    (hk : 0 < fuel) : collapseNewlinesF fuel (c :: rest) ≠ [] := by
  cases fuel with
  | zero => omega
  | succ k =>
    simp only [collapseNewlinesF]
    split
    · intro hcontra
      rcases List.append_eq_nil.mp hcontra with ⟨hout, _⟩
      split at hout
      · simp at hout
      · rw [List.replicate_eq_nil_iff] at hout
        omega
    · simp

theorem collapseNewlinesF_btick_step (fuel : Nat) (s : Str) :
    collapseNewlinesF (fuel + 1) (btick :: s) =
      btick :: collapseNewlinesF fuel s := by
  simp only [collapseNewlinesF]
  rw [if_neg (by decide)]

theorem collapseNewlinesF_prefix_btick :
    ∀ (fuel : Nat) (s : Str) (n : Nat),
      List.replicate n btick <+: collapseNewlinesF fuel s →
      List.replicate n btick <+: s := by
  intro fuel
  induction fuel with
  | zero =>
    intro s n h
    simp only [collapseNewlinesF] at h
    rw [List.prefix_nil.mp h]
    exact List.nil_prefix
  | succ k ih =>
    intro s n h
    cases s with
    | nil =>
      simp only [collapseNewlinesF] at h
      rw [List.prefix_nil.mp h]
    | cons c rest =>
      cases n with
      | zero => exact List.nil_prefix
      | succ m =>
        simp only [collapseNewlinesF] at h
        split at h
        · next hnl =>
          exfalso
          rw [List.replicate_succ] at h
          split at h
          · next hlong =>
            rw [List.cons_append] at h
            exact absurd (List.cons_prefix_cons.mp h).1 (by decide)
          · next hlong =>
            rw [Nat.add_comm 1, List.replicate_succ, List.cons_append] at h
            exact absurd (List.cons_prefix_cons.mp h).1 (by decide)
        · next hnl =>
          rw [List.replicate_succ] at h ⊢
          have h1 := List.cons_prefix_cons.mp h
          exact List.cons_prefix_cons.mpr ⟨h1.1, ih rest m h1.2⟩

theorem collapseNewlinesF_infix_transfer :
    ∀ (fuel : Nat) (s : Str),
      fenceStr <:+: collapseNewlinesF fuel s → fenceStr <:+: s := by
  intro fuel
  induction fuel with
  | zero =>
    intro s h
    simp only [collapseNewlinesF] at h
    rw [List.infix_nil] at h
    exact absurd h (by decide)
  | succ k ih =>
    intro s h
    cases s with
    | nil =>
      simp only [collapseNewlinesF] at h
      rw [List.infix_nil] at h
      exact absurd h (by decide)
    | cons c rest =>
      simp only [collapseNewlinesF] at h
      split at h
      · next hnl =>
        refine List.infix_cons
          ((ih _ (fence_infix_append ?_ h)).trans
            (List.dropWhile_suffix (fun d => d = '\n') :
              (rest.dropWhile fun d => d = '\n') <:+ rest).isInfix)
        intro x hx
        split at hx
        · have hxn : x = '\n' := by simpa using hx
          subst hxn
          decide
        · have hxn : x = '\n' := List.eq_of_mem_replicate hx
          subst hxn
          decide
      · next hnl =>
        rcases List.infix_cons_iff.mp h with hp | h2
        · rw [show fenceStr = btick :: [btick, btick] from rfl] at hp ⊢
          have h1 := List.cons_prefix_cons.mp hp
          have h2b := collapseNewlinesF_prefix_btick k rest 2 h1.2
          exact (List.cons_prefix_cons.mpr ⟨h1.1, h2b⟩).isInfix
        · exact List.infix_cons (ih _ h2)

theorem collapseNewlinesF_last :
    ∀ (fuel : Nat) (s : Str), s.length ≤ fuel →
      (collapseNewlinesF fuel s).getLast? = some btick →
      s.getLast? = some btick := by
  intro fuel
  induction fuel with
  | zero =>
    intro s hf h
    have hs : s = [] := List.length_eq_zero.mp (Nat.le_zero.mp hf)
    subst hs
    simp [collapseNewlinesF] at h
  | succ k ih =>
    intro s hf h
    cases s with
    | nil => simp [collapseNewlinesF] at h
    | cons c rest =>
      have hrl : rest.length ≤ k := by
        simp only [List.length_cons] at hf
        omega
      simp only [collapseNewlinesF] at h
      split at h
      · next hnl =>
        rcases getLast?_append_cases h with h2 | ⟨hnil, hout⟩
        · have hdl : (rest.dropWhile fun d => d = '\n').length ≤ rest.length :=
            (List.dropWhile_suffix (fun d => d = '\n') :
              (rest.dropWhile fun d => d = '\n') <:+ rest).length_le
          have h3 := ih _ (by omega) h2
          have hne : (rest.dropWhile fun d => d = '\n') ≠ [] := by
            intro h0
            rw [h0] at h3
            simp at h3
          have h4 : rest.getLast? = some btick := by
            rw [getLast?_of_suffix
              (List.dropWhile_suffix (fun d => d = '\n') :
                (rest.dropWhile fun d => d = '\n') <:+ rest) hne]
            exact h3
          have hrne : rest ≠ [] := by
            intro h0
            rw [h0] at h4
            simp at h4
          cases rest with
          | nil => exact absurd rfl hrne
          | cons e er => rw [List.getLast?_cons_cons]; exact h4
        · exfalso
          split at hout
          · simp [btick] at hout
          · have hmem := List.mem_of_mem_getLast? hout
            exact absurd (List.eq_of_mem_replicate hmem) (by decide)
      · next hnl =>
        rcases hbs : collapseNewlinesF k rest with _ | ⟨d, dr⟩
        · rw [hbs] at h
          have hc2 : c = btick := by simpa using h
          have hrest : rest = [] := by
            cases rest with
            | nil => rfl
            | cons e er =>
              have hk : 0 < k := by
                simp only [List.length_cons] at hrl
                omega
              exact absurd hbs (collapseNewlinesF_ne_nil hk)
          subst hrest
          simp [hc2]
        · rw [hbs, List.getLast?_cons_cons, ← hbs] at h
          have h3 := ih _ hrl h
          have hrne : rest ≠ [] := by
            intro h0
            rw [h0] at h3
            simp at h3
          cases rest with
          | nil => exact absurd rfl hrne
          | cons e er => rw [List.getLast?_cons_cons]; exact h3

theorem collapseNewlinesF_split :
    ∀ (fuel : Nat) (a b2 : Str),
      a.length + (b2.length + 1) ≤ fuel →
      collapseNewlinesF fuel (a ++ btick :: b2) =
        collapseNewlinesF a.length a ++
          btick :: collapseNewlinesF b2.length b2 := by
  intro fuel
  induction fuel with
  | zero =>
    intro a b2 hf
    omega
  | succ k ih =>
    intro a b2 hf
    cases a with
    | nil =>
      rw [List.nil_append, collapseNewlinesF_btick_step]
      have hirr : collapseNewlinesF k b2 = collapseNewlinesF b2.length b2 :=
        collapseNewlinesF_irrel k (by simp at hf; omega) le_rfl
      rw [hirr]
      rfl
    | cons c a2 =>
      have hf2 : a2.length + (b2.length + 1) ≤ k := by
        simp only [List.length_cons, List.length_append] at hf ⊢
        omega
      rw [List.cons_append]
      simp only [List.length_cons]
      simp only [collapseNewlinesF]
      split
      · next hnl =>
        have hhead : ∀ x : Char, (btick :: b2).head? = some x →
            (decide (x = '\n')) = false := by
          intro x hx
          cases hx
          decide
        have htw : ((a2 ++ btick :: b2).takeWhile fun d => d = '\n') =
            a2.takeWhile fun d => d = '\n' :=
          takeWhile_append_stop hhead
        have hdw : ((a2 ++ btick :: b2).dropWhile fun d => d = '\n') =
            (a2.dropWhile fun d => d = '\n') ++ btick :: b2 :=
          dropWhile_append_stop hhead
        rw [htw, hdw]
        have hdl : (a2.dropWhile fun d => d = '\n').length ≤ a2.length :=
          (List.dropWhile_suffix (fun d => d = '\n') :
            (a2.dropWhile fun d => d = '\n') <:+ a2).length_le
        rw [ih _ _ (by omega)]
        rw [show
            collapseNewlinesF (a2.dropWhile fun d => d = '\n').length
              (a2.dropWhile fun d => d = '\n') =
              collapseNewlinesF a2.length (a2.dropWhile fun d => d = '\n') from
          collapseNewlinesF_irrel _ le_rfl (by omega)]
        simp [List.append_assoc]
      · next hnl =>
        rw [ih a2 b2 hf2]
        simp

/-!
### Claim C7, part 4: fence-respecting transforms preserve the block list
-/

theorem fr_safe {g : Str → Str} (hg : FenceRespecting g) {p : Str}
    (h : SafeBefore p) : SafeBefore (g p) :=
  ⟨fun hi => h.1 (hg.infixT p hi), fun hl => h.2 (hg.lastT p hl)⟩

theorem fr_none {g : Str → Str} (hg : FenceRespecting g) {p : Str}
    (h : findFence p = none) : findFence (g p) = none := by
  rcases findFence_none_cases h with hno | ⟨a, t, heq, hsafe, hnt⟩
  · exact findFence_none_of_no_fence (fun hi => hno (hg.infixT p hi))
  · obtain ⟨A, T, hgeq, hA, hT⟩ := hg.sandwich a t hsafe hnt
    rw [heq, hgeq]
    exact findFence_sandwich_none hA hT

theorem fr_blocks {g : Str → Str} (hg : FenceRespecting g) :
    ∀ (fuel : Nat) (s : Str), s.length ≤ fuel →
      fenceBlocks (applyOutsideFences g s) = fenceBlocks s := by
  intro fuel
  induction fuel with
  | zero =>
    intro s hf
    have hs : s = [] := List.length_eq_zero.mp (Nat.le_zero.mp hf)
    subst hs
    have h1 : splitFences ([] : Str) = [[]] :=
      splitFences_eq_single findFence_nil
    rw [applyOutsideFences, h1]
    simp only [mapEven, List.flatten_cons, List.flatten_nil, List.append_nil]
    rw [fenceBlocks_none (fr_none hg findFence_nil),
      fenceBlocks_none findFence_nil]
  | succ k ih =>
    intro s hf
    rcases hff : findFence s with _ | ⟨pre, block, post⟩
    · have h1 : splitFences s = [s] := splitFences_eq_single hff
      rw [applyOutsideFences, h1]
      simp only [mapEven, List.flatten_cons, List.flatten_nil, List.append_nil]
      rw [fenceBlocks_none (fr_none hg hff), fenceBlocks_none hff]
    · obtain ⟨mid, heq, hblock, hpreS, hmidS⟩ := findFence_some hff
      have hpl := findFence_post_len hff
      have h1 : splitFences s = pre :: block :: splitFences post :=
        splitFences_cons hff
      have h2 : applyOutsideFences g s =
          g pre ++ (fenceStr ++ mid ++ fenceStr) ++
            applyOutsideFences g post := by
        simp only [applyOutsideFences, h1, mapEven, List.flatten_cons,
          ← hblock]
        simp [List.append_assoc]
      rw [h2,
        fenceBlocks_cons (findFence_shape (fr_safe hg hpreS) hmidS),
        fenceBlocks_cons hff, hblock, ih post (by omega)]

theorem fr_fenceBlocks {g : Str → Str} (hg : FenceRespecting g) (s : Str) :
    fenceBlocks (applyOutsideFences g s) = fenceBlocks s :=
  fr_blocks hg s.length s le_rfl

theorem breakSub_respecting : FenceRespecting breakSub := by
  refine ⟨?_, ?_, ?_⟩
  · intro s h
    exact breakSubF_infix_transfer s.length none s h
  · intro s h
    exact breakSubF_last s.length none s le_rfl h
  · intro a t hsafe hnt
    refine ⟨breakSubF a.length none a, breakSubF t.length (some btick) t,
      ?_, ?_, ?_⟩
    · rw [breakSub]
      rw [show a ++ fenceStr ++ t = a ++ btick :: (btick :: btick :: t) by
        simp [fenceStr]]
      rw [breakSubF_split _ none a (btick :: btick :: t) (by simp)]
      rw [show (btick :: btick :: t).length = (t.length + 1) + 1 by simp]
      rw [breakSubF_btick_step, breakSubF_btick_step]
      simp [fenceStr]
    · exact ⟨fun hi => hsafe.1 (breakSubF_infix_transfer a.length none a hi),
        fun hl => hsafe.2 (breakSubF_last a.length none a le_rfl hl)⟩
    · exact fun hi => hnt (breakSubF_infix_transfer t.length (some btick) t hi)

theorem dn_fence : doubleNewlines fenceStr = fenceStr := by decide

theorem paraSub_nil : paraSub [] = [] := rfl

theorem paraSub_sandwich (a t : Str) :
    paraSub (a ++ fenceStr ++ t) = paraSub a ++ fenceStr ++ paraSub t := by
  rw [paraSub, paraSub, paraSub]
  rw [List.append_assoc, dn_append, dn_append, dn_fence]
  rw [show fenceStr ++ doubleNewlines t =
    btick :: (btick :: btick :: doubleNewlines t) by simp [fenceStr]]
  rw [collapseNewlines,
    collapseNewlinesF_split _ (doubleNewlines a)
      (btick :: btick :: doubleNewlines t) (by simp)]
  rw [show (btick :: btick :: doubleNewlines t).length =
    ((doubleNewlines t).length + 1) + 1 by simp]
  rw [collapseNewlinesF_btick_step, collapseNewlinesF_btick_step]
  rw [collapseNewlines, collapseNewlines]
  simp [fenceStr]

theorem paraSub_respecting : FenceRespecting paraSub := by
  refine ⟨?_, ?_, ?_⟩
  · intro s h
    exact dn_infix_transfer
      (collapseNewlinesF_infix_transfer (doubleNewlines s).length (doubleNewlines s) h)
  · intro s h
    exact dn_last s
      (collapseNewlinesF_last (doubleNewlines s).length (doubleNewlines s)
        le_rfl h)
  · intro a t hsafe hnt
    refine ⟨paraSub a, paraSub t, paraSub_sandwich a t, ?_, ?_⟩
    · exact ⟨fun hi => hsafe.1 (dn_infix_transfer
          (collapseNewlinesF_infix_transfer _ (doubleNewlines a) hi)),
        fun hl => hsafe.2 (dn_last a
          (collapseNewlinesF_last _ (doubleNewlines a) le_rfl hl))⟩
    · exact fun hi => hnt (dn_infix_transfer
        (collapseNewlinesF_infix_transfer _ (doubleNewlines t) hi))

/-!
### Claim C7, part 5: the 4096-character slicing can cut a fence
-/

theorem breakSubF_id_of_no_ws :
    ∀ (fuel : Nat) (prev : Option Char) (s : Str), s.length ≤ fuel →
      (∀ x ∈ s, pyWs x = false) → breakSubF fuel prev s = s := by
  intro fuel
  induction fuel with
  | zero =>
    intro prev s hf hw
    have hs : s = [] := List.length_eq_zero.mp (Nat.le_zero.mp hf)
    subst hs
    rfl
  | succ k ih =>
    intro prev s hf hw
    cases s with
    | nil => rfl
    | cons c rest =>
      simp only [breakSubF]
      rw [if_neg (show ¬ pyWs c = true by simp [hw c (by simp)])]
      rw [ih (some c) rest (by simp only [List.length_cons] at hf; omega)
        (fun x hx => hw x (by simp [hx]))]

theorem dn_id_of_no_nl :
    ∀ s : Str, (∀ x ∈ s, x ≠ '\n') → doubleNewlines s = s := by
  intro s
  induction s with
  | nil => intro h; rfl
  | cons c rest ih =>
    intro h
    simp only [doubleNewlines]
    rw [if_neg (h c (by simp))]
    rw [ih (fun x hx => h x (by simp [hx]))]

theorem collapseNewlinesF_id_of_no_nl :
    ∀ (fuel : Nat) (s : Str), s.length ≤ fuel → (∀ x ∈ s, x ≠ '\n') →
      collapseNewlinesF fuel s = s := by
  intro fuel
  induction fuel with
  | zero =>
    intro s hf hw
    have hs : s = [] := List.length_eq_zero.mp (Nat.le_zero.mp hf)
    subst hs
    rfl
  | succ k ih =>
    intro s hf hw
    cases s with
    | nil => rfl
    | cons c rest =>
      simp only [collapseNewlinesF]
      rw [if_neg (hw c (by simp))]
      rw [ih rest (by simp only [List.length_cons] at hf; omega)
        (fun x hx => hw x (by simp [hx]))]

theorem breakSub_id_of_no_ws {s : Str} (h : ∀ x ∈ s, pyWs x = false) :
    breakSub s = s :=
  breakSubF_id_of_no_ws s.length none s le_rfl h

theorem paraSub_id_of_no_nl {s : Str} (h : ∀ x ∈ s, x ≠ '\n') :
    paraSub s = s := by
  rw [paraSub, dn_id_of_no_nl s h, collapseNewlines,
    collapseNewlinesF_id_of_no_nl s.length s le_rfl h]

theorem chunksOfF_irrel :
    ∀ fuel1 : Nat, ∀ {fuel2 n : Nat} {s : Str}, 0 < n → s.length ≤ fuel1 →
      s.length ≤ fuel2 → chunksOfF fuel1 n s = chunksOfF fuel2 n s := by
  intro fuel1
  induction fuel1 with
  | zero =>
    intro fuel2 n s hn h1 h2
    have hs : s = [] := List.length_eq_zero.mp (Nat.le_zero.mp h1)
    subst hs
    cases fuel2 <;> rfl
  | succ k ih =>
    intro fuel2 n s hn h1 h2
    cases fuel2 with
    | zero =>
      have hs : s = [] := List.length_eq_zero.mp (Nat.le_zero.mp h2)
      subst hs
      rfl
    | succ m =>
      cases s with
      | nil => rfl
      | cons c rest =>
        simp only [List.length_cons] at h1 h2
        simp only [chunksOfF]
        congr 1
        exact ih hn
          (by simp only [List.length_drop, List.length_cons]; omega)
          (by simp only [List.length_drop, List.length_cons]; omega)

theorem chunksOf_step {n : Nat} {s : Str} (hn : 0 < n) (hs : s ≠ []) :
    chunksOf n s = s.take n :: chunksOf n (s.drop n) := by
  cases s with
  | nil => exact absurd rfl hs
  | cons c rest =>
    simp only [chunksOf, List.length_cons]
    simp only [chunksOfF]
    congr 1
    exact chunksOfF_irrel rest.length hn
      (by simp only [List.length_drop, List.length_cons]; omega) le_rfl

theorem chunksOf_nil (n : Nat) : chunksOf n [] = [] := rfl

theorem safeBefore_replicate_a (n : Nat) :
    SafeBefore (List.replicate n 'a') := by
  constructor
  · intro hi
    have hb : btick ∈ List.replicate n 'a' :=
      hi.sublist.subset (by simp [fenceStr])
    exact absurd (List.eq_of_mem_replicate hb) (by decide)
  · intro hl
    have hb : btick ∈ List.replicate n 'a' :=
      List.mem_of_mem_getLast? hl
    exact absurd (List.eq_of_mem_replicate hb) (by decide)

theorem safeBefore_singleton_b : SafeBefore ['b'] := by
  constructor
  · intro hi
    have hlen := hi.length_le
    simp [fenceStr] at hlen
  · intro hl
    simp at hl
    exact absurd hl (by decide)

/-- **C7.** The sentence-breaking and paragraph-formatting transforms of
the Finalizer (app.py lines 160-192, applied at line 1081) leave the list
of fenced code regions unchanged, and every fenced region of the input
survives byte-identically as a contiguous run of the fully formatted
text. -/
theorem fenced_regions_preserved (s : Str) :
    fenceBlocks (breakSentencesIntoLines s) = fenceBlocks s ∧
    fenceBlocks (formatForTelegramParagraphs (breakSentencesIntoLines s)) =
      fenceBlocks s ∧
    ∀ b ∈ fenceBlocks s,
      b <:+: formatForTelegramParagraphs (breakSentencesIntoLines s) := by
  have h1 : fenceBlocks (breakSentencesIntoLines s) = fenceBlocks s :=
    fr_fenceBlocks breakSub_respecting s
  have h2 : fenceBlocks
      (formatForTelegramParagraphs (breakSentencesIntoLines s)) =
      fenceBlocks s :=
    (fr_fenceBlocks paraSub_respecting (breakSentencesIntoLines s)).trans h1
  refine ⟨h1, h2, ?_⟩
  intro b hb
  exact fenceBlocks_infix (show b ∈ fenceBlocks
    (formatForTelegramParagraphs (breakSentencesIntoLines s)) by
      rw [h2]; exact hb)

/-- **C7 (counterexample).** The final delivery slices the formatted text
into blind 4096-character segments (app.py line 1083), and that slicing
can cut a fenced code region in two: on this transcript the single fenced
block ends up an infix of no delivered segment. -/
theorem fence_chunk_split_counterexample :
    ∃ s : Str,
      ∃ b ∈ fenceBlocks
          (formatForTelegramParagraphs (breakSentencesIntoLines s)),
        ∀ c ∈ chunksOf 4096
            (formatForTelegramParagraphs (breakSentencesIntoLines s)),
          ¬ b <:+: c := by
  refine ⟨List.replicate 4090 'a' ++ fenceStr ++ ['b'] ++ fenceStr, ?_⟩
  have hsp : List.replicate 4090 'a' ++ fenceStr ++ ['b'] ++ fenceStr =
      List.replicate 4090 'a' ++ (fenceStr ++ ['b'] ++ fenceStr) ++ [] := by
    simp only [List.append_assoc, List.append_nil]
  have hfind : findFence
      (List.replicate 4090 'a' ++ fenceStr ++ ['b'] ++ fenceStr) =
      some (List.replicate 4090 'a', fenceStr ++ ['b'] ++ fenceStr, []) := by
    rw [hsp]
    exact findFence_shape (safeBefore_replicate_a 4090) safeBefore_singleton_b
  have hblocks : fenceBlocks
      (List.replicate 4090 'a' ++ fenceStr ++ ['b'] ++ fenceStr) =
      [fenceStr ++ ['b'] ++ fenceStr] := by
    rw [fenceBlocks_cons hfind, fenceBlocks_none findFence_nil]
  have happly : ∀ g : Str → Str,
      g (List.replicate 4090 'a') = List.replicate 4090 'a' → g [] = [] →
      applyOutsideFences g
        (List.replicate 4090 'a' ++ fenceStr ++ ['b'] ++ fenceStr) =
        List.replicate 4090 'a' ++ fenceStr ++ ['b'] ++ fenceStr := by
    intro g hgR hgnil
    rw [applyOutsideFences, splitFences_cons hfind,
      splitFences_eq_single findFence_nil]
    simp only [mapEven, List.flatten_cons, List.flatten_nil]
    rw [hgR, hgnil]
    simp only [List.append_assoc, List.append_nil, List.nil_append]
  have hid1 : breakSentencesIntoLines
      (List.replicate 4090 'a' ++ fenceStr ++ ['b'] ++ fenceStr) =
      List.replicate 4090 'a' ++ fenceStr ++ ['b'] ++ fenceStr :=
    happly breakSub
      (breakSub_id_of_no_ws (fun x hx => by
        rw [List.eq_of_mem_replicate hx]; decide)) rfl
  have hid2 : formatForTelegramParagraphs
      (List.replicate 4090 'a' ++ fenceStr ++ ['b'] ++ fenceStr) =
      List.replicate 4090 'a' ++ fenceStr ++ ['b'] ++ fenceStr :=
    happly paraSub
      (paraSub_id_of_no_nl (fun x hx => by
        rw [List.eq_of_mem_replicate hx]; decide)) paraSub_nil
  rw [hid1, hid2]
  have hX0len : (List.replicate 4090 'a' ++ fenceStr ++ ['b'] ++
      [btick, btick]).length = 4096 := by
    simp only [List.length_append, List.length_replicate, fenceStr,
      List.length_cons, List.length_nil]
  have hs0 : List.replicate 4090 'a' ++ fenceStr ++ ['b'] ++ fenceStr =
      (List.replicate 4090 'a' ++ fenceStr ++ ['b'] ++ [btick, btick]) ++
        [btick] := by
    simp only [fenceStr, List.append_assoc, List.cons_append,
      List.nil_append]
  have hchunks : chunksOf 4096
      (List.replicate 4090 'a' ++ fenceStr ++ ['b'] ++ fenceStr) =
      [List.replicate 4090 'a' ++ fenceStr ++ ['b'] ++ [btick, btick],
        [btick]] := by
    rw [hs0]
    rw [chunksOf_step (show (0 : Nat) < 4096 by omega)
      (fun h0 => absurd (List.append_eq_nil.mp h0).2 (by simp))]
    rw [show ((List.replicate 4090 'a' ++ fenceStr ++ ['b'] ++
          [btick, btick]) ++ [btick]).take 4096 =
        List.replicate 4090 'a' ++ fenceStr ++ ['b'] ++ [btick, btick] from by
      rw [← hX0len]; exact List.take_left _ _]
    rw [show ((List.replicate 4090 'a' ++ fenceStr ++ ['b'] ++
          [btick, btick]) ++ [btick]).drop 4096 = [btick] from by
      rw [← hX0len]; exact List.drop_left _ _]
    rw [chunksOf_step (show (0 : Nat) < 4096 by omega) (by simp)]
    rw [show ([btick] : Str).take 4096 = [btick] from
      List.take_of_length_le (by simp)]
    rw [show ([btick] : Str).drop 4096 = [] from
      List.drop_eq_nil_of_le (by simp)]
    rw [chunksOf_nil]
  have hcR : (List.replicate 4090 'a').count btick = 0 := by
    rw [List.count_eq_zero]
    intro hmem
    exact absurd (List.eq_of_mem_replicate hmem) (by decide)
  have hcount1 : (List.replicate 4090 'a' ++ fenceStr ++ ['b'] ++
      [btick, btick]).count btick = 5 := by
    simp only [List.count_append, hcR]
    decide
  have hcount2 : (fenceStr ++ ['b'] ++ fenceStr).count btick = 6 := by
    decide
  have hcount3 : ([btick] : Str).count btick = 1 := by decide
  refine ⟨fenceStr ++ ['b'] ++ fenceStr, ?_, ?_⟩
  · rw [hblocks]
    simp
  · intro c hc
    rw [hchunks] at hc
    rcases List.mem_cons.mp hc with rfl | hc2
    · intro hinf
      have hle := List.Sublist.count_le hinf.sublist btick
      rw [hcount2, hcount1] at hle
      omega
    · rcases List.mem_cons.mp hc2 with rfl | hc3
      · intro hinf
        have hle := List.Sublist.count_le hinf.sublist btick
        rw [hcount2, hcount3] at hle
        omega
      · simp at hc3

end GeminiBot
